import Mathlib

set_option maxRecDepth 1000000

/-!
Verification development for the `leaks-suite` repository.

The development shallowly embeds the Rust sources:

* `src/lib/src/lib.rs` — `parse_domain` (the domain splitter) and `parse_tld`
  (the public-suffix-list loader).
* `src/leaks_indexer/src/main.rs` — the credential extractor (`regex_extract`,
  `parse_entry`) built on the two compiled patterns `CRED_FIRST_RE` and
  `CRED_LAST_RE`, and the per-line loop `Indexer::entry_reader`.

Strings are modelled as `List Char`; for the UTF-8 slicing-safety development
at the end, byte strings are modelled as `List Nat`.
-/

namespace LeaksSuite

/-- Indices (ascending) of `'.'` occurrences in a string, mirroring Rust's
`domain.match_indices('.')` (all characters of interest are ASCII, so byte
indices and character indices coincide on the inputs the claims range over). -/
def dotIndices : List Char → List Nat
  | [] => []
  | c :: cs =>
    if c = '.' then 0 :: (dotIndices cs).map (· + 1)
    else (dotIndices cs).map (· + 1)

/-- Occurrence positions of `query` as a contiguous substring of `text`,
mirroring `suffix::SuffixTable::positions`: the suffix table is built over the
space-joined suffix corpus and `positions` returns every position at which the
query occurs as a substring of that corpus; an empty query yields no
positions. -/
def positions (text query : List Char) : List Nat :=
  if query.isEmpty then []
  else (List.range text.length).filter (fun i => query.isPrefixOf (text.drop i))

/-- Shallow embedding of `lib::parse_domain` (src/lib/src/lib.rs:25-49).
`domain.match_indices('.').rev().take(3)` becomes
`(dotIndices domain).reverse.take 3`; the Rust
`if !tld_pos.is_empty() { .. } else { .. }` is rendered with the branches
swapped around `List.isEmpty`. -/
def parse_domain (domain st : List Char) : List Char × List Char :=
  match (dotIndices domain).reverse.take 3 with
  | _ :: i2 :: rest =>
    let sd := i2
    let sdn := sd + 1
    let tdp := match rest with
      | i3 :: _ => (i3, i3 + 1)
      | [] => (0, 0)
    let tld_part := domain.drop sdn
    if (positions st tld_part).isEmpty then
      (domain.take sd, domain.drop sdn)
    else
      (domain.take tdp.1, domain.drop tdp.2)
  | _ => ([], domain)

/-- Join a list of labels with a single separator character between
consecutive labels (so `joinSep '.' [a, b, c]` is `a.b.c`). Used to state
label-level properties of the splitter and the suffix-list loader. -/
def joinSep (s : Char) : List (List Char) → List Char
  | [] => []
  | [p] => p
  | p :: q :: ps => p ++ s :: joinSep s (q :: ps)

/-! ### Evaluation lemmas for `parse_domain`, by shape of the dot-index list -/

theorem parse_domain_eq_zero (d st : List Char)
    (h : (dotIndices d).reverse.take 3 = []) :
    parse_domain d st = ([], d) := by
  unfold parse_domain
  rw [h]

theorem parse_domain_eq_one (d st : List Char) (i1 : Nat)
    (h : (dotIndices d).reverse.take 3 = [i1]) :
    parse_domain d st = ([], d) := by
  unfold parse_domain
  rw [h]

theorem parse_domain_eq_two (d st : List Char) (i1 i2 : Nat)
    (h : (dotIndices d).reverse.take 3 = [i1, i2]) :
    parse_domain d st =
      if (positions st (d.drop (i2 + 1))).isEmpty then (d.take i2, d.drop (i2 + 1))
      else (d.take 0, d.drop 0) := by
  unfold parse_domain
  rw [h]

theorem parse_domain_eq_three (d st : List Char) (i1 i2 i3 : Nat)
    (h : (dotIndices d).reverse.take 3 = [i1, i2, i3]) :
    parse_domain d st =
      if (positions st (d.drop (i2 + 1))).isEmpty then (d.take i2, d.drop (i2 + 1))
      else (d.take i3, d.drop (i3 + 1)) := by
  unfold parse_domain
  rw [h]

/-! ### Structure lemmas for `dotIndices` and `joinSep` -/

theorem dotIndices_append (u v : List Char) :
    dotIndices (u ++ v) = dotIndices u ++ (dotIndices v).map (· + u.length) := by
  induction u with
  | nil => simp [dotIndices]
  | cons c u ih =>
    by_cases hc : c = '.' <;>
      simp [dotIndices, hc, ih, List.map_map, Function.comp, Nat.add_assoc,
        Nat.add_comm 1]

theorem dotIndices_eq_nil {u : List Char} (h : '.' ∉ u) : dotIndices u = [] := by
  induction u with
  | nil => rfl
  | cons c u ih =>
    have hc : ¬ c = '.' := fun hcc => h (hcc ▸ List.mem_cons_self c u)
    have hu : '.' ∉ u := fun hm => h (List.mem_cons_of_mem c hm)
    simp [dotIndices, hc, ih hu]

theorem joinSep_append (s : Char) :
    ∀ (xs ys : List (List Char)), xs ≠ [] → ys ≠ [] →
      joinSep s (xs ++ ys) = joinSep s xs ++ s :: joinSep s ys
  | [], _, hx, _ => absurd rfl hx
  | [x], ys, _, hy => by
    cases ys with
    | nil => exact absurd rfl hy
    | cons y ys => simp [joinSep]
  | x :: x' :: xs, ys, hx, hy => by
    have ih := joinSep_append s (x' :: xs) ys (by simp) hy
    simp only [List.cons_append, List.append_eq, joinSep] at ih ⊢
    rw [ih]
    simp

theorem take_len_append (A B : List Char) : (A ++ B).take A.length = A := by
  simp

theorem drop_len_append (A B : List Char) : (A ++ B).drop A.length = B := by
  simp

theorem drop_len_append_cons (A B : List Char) (x : Char) :
    (A ++ x :: B).drop (A.length + 1) = B := by
  have h1 : A ++ x :: B = (A ++ [x]) ++ B := by simp
  have h2 : A.length + 1 = (A ++ [x]).length := by simp
  rw [h1, h2, drop_len_append]

theorem dotIndices_join3 (A b c : List Char) (hbd : '.' ∉ b) (hcd : '.' ∉ c) :
    dotIndices (A ++ '.' :: (b ++ '.' :: c)) =
      dotIndices A ++ [A.length, b.length + 1 + A.length] := by
  rw [dotIndices_append]
  congr 1
  simp [dotIndices, dotIndices_append, dotIndices_eq_nil hbd, dotIndices_eq_nil hcd]

theorem take3_cons3 {α : Type} (a b c : α) (t : List α) :
    (a :: b :: c :: t).take 3 = [a, b, c] := rfl

theorem take3_pair {α : Type} (a b : α) : ([a, b] : List α).take 3 = [a, b] := rfl

/-- C1: for a normalized domain with at least two dots, decomposed into
dot-free labels `fr ++ [lab, b, c]`, the splitter tests whether the candidate
`b.c` (the last two labels) occurs as a known suffix of the index (a
`positions` query on the suffix corpus); exactly when it does, the registrable
domain is the candidate plus the one label `lab` to its left, and otherwise it
is just the last two labels `b.c`. -/
theorem parse_domain_candidate_split
    (fr : List (List Char)) (lab b c st : List Char)
    (hfr : ∀ p ∈ fr, p ≠ [] ∧ '.' ∉ p)
    (hlab : lab ≠ []) (hlabd : '.' ∉ lab)
    (hb : b ≠ []) (hbd : '.' ∉ b)
    (hc : c ≠ []) (hcd : '.' ∉ c) :
    ((positions st (b ++ '.' :: c)).isEmpty = false →
       parse_domain (joinSep '.' (fr ++ [lab, b, c])) st
         = (joinSep '.' fr, joinSep '.' [lab, b, c])) ∧
    ((positions st (b ++ '.' :: c)).isEmpty = true →
       parse_domain (joinSep '.' (fr ++ [lab, b, c])) st
         = (joinSep '.' (fr ++ [lab]), b ++ '.' :: c)) := by
  cases fr with
  | nil =>
    have hd : joinSep '.' (([] : List (List Char)) ++ [lab, b, c])
        = lab ++ '.' :: (b ++ '.' :: c) := by
      simp [joinSep]
    have hdots : dotIndices (joinSep '.' (([] : List (List Char)) ++ [lab, b, c]))
        = [lab.length, b.length + 1 + lab.length] := by
      rw [hd, dotIndices_join3 lab b c hbd hcd, dotIndices_eq_nil hlabd]
      simp
    have hrev : (dotIndices (joinSep '.' (([] : List (List Char)) ++ [lab, b, c]))).reverse.take 3
        = [b.length + 1 + lab.length, lab.length] := by
      rw [hdots]
      rfl
    have pd := parse_domain_eq_two _ st _ _ hrev
    have hdrop : (joinSep '.' (([] : List (List Char)) ++ [lab, b, c])).drop (lab.length + 1)
        = b ++ '.' :: c := by
      rw [hd]; exact drop_len_append_cons lab _ '.'
    have htake : (joinSep '.' (([] : List (List Char)) ++ [lab, b, c])).take lab.length
        = lab := by
      rw [hd]; exact take_len_append lab _
    rw [hdrop] at pd
    constructor
    · intro hpos
      rw [pd, hpos]
      simp [joinSep, hd]
    · intro hpos
      rw [pd, hpos]
      simp [joinSep, hdrop, htake]
  | cons f0 fr' =>
    have hfrne : (f0 :: fr') ≠ ([] : List (List Char)) := by simp
    have hd : joinSep '.' ((f0 :: fr') ++ [lab, b, c])
        = joinSep '.' (f0 :: fr') ++ '.' :: (lab ++ '.' :: (b ++ '.' :: c)) := by
      rw [joinSep_append '.' (f0 :: fr') [lab, b, c] hfrne (by simp)]
      simp [joinSep]
    have hd' : joinSep '.' ((f0 :: fr') ++ [lab, b, c])
        = (joinSep '.' (f0 :: fr') ++ '.' :: lab) ++ '.' :: (b ++ '.' :: c) := by
      rw [hd]; simp
    have hA : joinSep '.' ((f0 :: fr') ++ [lab])
        = joinSep '.' (f0 :: fr') ++ '.' :: lab := by
      rw [joinSep_append '.' (f0 :: fr') [lab] hfrne (by simp)]
      rfl
    have h1 : dotIndices ('.' :: lab) = [0] := by
      simp [dotIndices, dotIndices_eq_nil hlabd]
    have hA_dots : dotIndices (joinSep '.' (f0 :: fr') ++ '.' :: lab)
        = dotIndices (joinSep '.' (f0 :: fr')) ++ [(joinSep '.' (f0 :: fr')).length] := by
      rw [dotIndices_append, h1]; simp
    have hd_dots : dotIndices (joinSep '.' ((f0 :: fr') ++ [lab, b, c]))
        = (dotIndices (joinSep '.' (f0 :: fr')) ++ [(joinSep '.' (f0 :: fr')).length])
          ++ [(joinSep '.' (f0 :: fr') ++ '.' :: lab).length,
              b.length + 1 + (joinSep '.' (f0 :: fr') ++ '.' :: lab).length] := by
      rw [hd', dotIndices_join3 _ b c hbd hcd, hA_dots]
    have hrev : (dotIndices (joinSep '.' ((f0 :: fr') ++ [lab, b, c]))).reverse.take 3
        = [b.length + 1 + (joinSep '.' (f0 :: fr') ++ '.' :: lab).length,
           (joinSep '.' (f0 :: fr') ++ '.' :: lab).length,
           (joinSep '.' (f0 :: fr')).length] := by
      rw [hd_dots]
      have : ((dotIndices (joinSep '.' (f0 :: fr')) ++ [(joinSep '.' (f0 :: fr')).length])
          ++ [(joinSep '.' (f0 :: fr') ++ '.' :: lab).length,
              b.length + 1 + (joinSep '.' (f0 :: fr') ++ '.' :: lab).length]).reverse
          = (b.length + 1 + (joinSep '.' (f0 :: fr') ++ '.' :: lab).length)
            :: ((joinSep '.' (f0 :: fr') ++ '.' :: lab).length)
            :: ((joinSep '.' (f0 :: fr')).length)
            :: (dotIndices (joinSep '.' (f0 :: fr'))).reverse := by
        simp
      rw [this]
      exact take3_cons3 _ _ _ _
    have pd := parse_domain_eq_three _ st _ _ _ hrev
    have hdropP : (joinSep '.' ((f0 :: fr') ++ [lab, b, c])).drop
        ((joinSep '.' (f0 :: fr') ++ '.' :: lab).length + 1) = b ++ '.' :: c := by
      rw [hd']; exact drop_len_append_cons _ _ '.'
    have htakeP : (joinSep '.' ((f0 :: fr') ++ [lab, b, c])).take
        (joinSep '.' (f0 :: fr') ++ '.' :: lab).length
        = joinSep '.' (f0 :: fr') ++ '.' :: lab := by
      rw [hd']; exact take_len_append _ _
    have hdropF : (joinSep '.' ((f0 :: fr') ++ [lab, b, c])).drop
        ((joinSep '.' (f0 :: fr')).length + 1) = lab ++ '.' :: (b ++ '.' :: c) := by
      rw [hd]; exact drop_len_append_cons _ _ '.'
    have htakeF : (joinSep '.' ((f0 :: fr') ++ [lab, b, c])).take
        (joinSep '.' (f0 :: fr')).length = joinSep '.' (f0 :: fr') := by
      rw [hd]; exact take_len_append _ _
    rw [hdropP] at pd
    constructor
    · intro hpos
      rw [pd, hpos]
      simp only [if_neg (by simp : ¬ (false = true))] at *
      rw [htakeF, hdropF]
      simp [joinSep]
    · intro hpos
      rw [pd, hpos]
      simp only [if_true]
      rw [htakeP, hA]

/-- Witness for C1 at the spec's compound-suffix example: with a suffix corpus
containing "co.uk", splitting "a.b.gotadsl.co.uk" yields subdomain "a.b" and
registrable domain "gotadsl.co.uk". -/
theorem parse_domain_candidate_split_witness :
    parse_domain "a.b.gotadsl.co.uk".data "com net co.uk".data
      = ("a.b".data, "gotadsl.co.uk".data) := by
  have h := (parse_domain_candidate_split [['a'], ['b']] "gotadsl".data "co".data "uk".data
      "com net co.uk".data (by decide) (by decide) (by decide) (by decide) (by decide)
      (by decide) (by decide)).1 (by decide)
  have e1 : joinSep '.' ([['a'], ['b']] ++ ["gotadsl".data, "co".data, "uk".data])
      = "a.b.gotadsl.co.uk".data := by decide
  have e2 : joinSep '.' [['a'], ['b']] = "a.b".data := by decide
  have e3 : joinSep '.' ["gotadsl".data, "co".data, "uk".data] = "gotadsl.co.uk".data := by
    decide
  rw [e1, e2, e3] at h
  exact h

/-! ### Dot indices under `drop`, and sortedness -/

theorem dotIndices_pairwise (d : List Char) : (dotIndices d).Pairwise (· < ·) := by
  induction d with
  | nil => simp [dotIndices]
  | cons c cs ih =>
    by_cases hc : c = '.'
    · rw [dotIndices, if_pos hc]
      refine List.Pairwise.cons ?_ ?_
      · intro a ha
        rcases List.mem_map.mp ha with ⟨x, _, rfl⟩
        omega
      · rw [List.pairwise_map]
        exact ih.imp (fun h => by omega)
    · rw [dotIndices, if_neg hc]
      rw [List.pairwise_map]
      exact ih.imp (fun h => by omega)

theorem dotIndices_drop : ∀ (k : Nat) (d : List Char),
    dotIndices (d.drop k) = ((dotIndices d).filter (fun i => k ≤ i)).map (· - k)
  | 0, d => by simp
  | k+1, [] => by simp [dotIndices]
  | k+1, ch :: cs => by
    have ih := dotIndices_drop k cs
    have hf : ((fun x => x - (k + 1)) ∘ fun x : Nat => x + 1) = (fun x : Nat => x - k) := by
      funext x
      simp [Function.comp, Nat.succ_sub_succ]
    have hp : ((fun i => decide (k + 1 ≤ i)) ∘ fun x : Nat => x + 1)
        = (fun x : Nat => decide (k ≤ x)) := by
      funext x
      simp [Function.comp, Nat.succ_le_succ_iff]
    by_cases hch : ch = '.' <;>
      simp [dotIndices, hch, ih, List.filter_map, List.map_map, hf, hp]

/-- C4: re-splitting the registrable-domain component returned by the splitter
yields an empty subdomain and the same registrable domain, for every input
string and every suffix index. -/
theorem parse_domain_split_idempotent (d st : List Char) :
    parse_domain (parse_domain d st).2 st = ([], (parse_domain d st).2) := by
  rcases hrev : (dotIndices d).reverse with _ | ⟨a, _ | ⟨b, rest⟩⟩
  · have pd := parse_domain_eq_zero d st (by rw [hrev]; rfl)
    rw [pd]
    exact pd
  · have pd := parse_domain_eq_one d st a (by rw [hrev]; rfl)
    rw [pd]
    exact pd
  · have hpw : ((dotIndices d).reverse).Pairwise (fun x y => y < x) :=
      (List.pairwise_reverse).mpr (dotIndices_pairwise d)
    rw [hrev] at hpw
    have hba : b < a := (List.pairwise_cons.mp hpw).1 b (by simp)
    have hpw2 := (List.pairwise_cons.mp hpw).2
    have hrestb : ∀ j ∈ rest, j < b := (List.pairwise_cons.mp hpw2).1
    have hD : dotIndices d = (a :: b :: rest).reverse := by
      rw [← hrev, List.reverse_reverse]
    have hr1 : dotIndices (d.drop (b + 1)) = [a - (b + 1)] := by
      rw [dotIndices_drop, hD]
      have he : (a :: b :: rest).reverse = rest.reverse ++ [b, a] := by simp
      rw [he, List.filter_append]
      have h1 : rest.reverse.filter (fun i => decide (b + 1 ≤ i)) = [] := by
        apply List.filter_eq_nil_iff.mpr
        intro j hj
        have := hrestb j (List.mem_reverse.mp hj)
        simp
        omega
      have h2 : ([b, a] : List Nat).filter (fun i => decide (b + 1 ≤ i)) = [a] := by
        rw [List.filter_cons_of_neg (by simp)]
        rw [List.filter_cons_of_pos (by simp [Nat.succ_le]; omega)]
        rfl
      rw [h1, h2]
      rfl
    rcases rest with _ | ⟨c, t⟩
    · have pd := parse_domain_eq_two d st a b (by rw [hrev]; rfl)
      cases hpos : (positions st (d.drop (b + 1))).isEmpty with
      | false =>
        have pd' : parse_domain d st = (d.take 0, d.drop 0) := by
          rw [pd, hpos]
          simp
        rw [pd']
        exact pd'
      | true =>
        have pd' : parse_domain d st = (d.take b, d.drop (b + 1)) := by
          rw [pd, hpos]
          simp
        rw [pd']
        exact parse_domain_eq_one _ st _ (by rw [hr1]; rfl)
    · have pd := parse_domain_eq_three d st a b c (by rw [hrev]; rfl)
      have hcb : c < b := (List.pairwise_cons.mp hpw2).1 c (by simp)
      have hpw3 := (List.pairwise_cons.mp hpw2).2
      have htc : ∀ j ∈ t, j < c := (List.pairwise_cons.mp hpw3).1
      cases hpos : (positions st (d.drop (b + 1))).isEmpty with
      | false =>
        have pd' : parse_domain d st = (d.take c, d.drop (c + 1)) := by
          rw [pd, hpos]
          simp
        rw [pd']
        show parse_domain (d.drop (c + 1)) st = ([], d.drop (c + 1))
        have hr2 : dotIndices (d.drop (c + 1)) = [b - (c + 1), a - (c + 1)] := by
          rw [dotIndices_drop, hD]
          have he : (a :: b :: c :: t).reverse = t.reverse ++ [c, b, a] := by simp
          rw [he, List.filter_append]
          have h1 : t.reverse.filter (fun i => decide (c + 1 ≤ i)) = [] := by
            apply List.filter_eq_nil_iff.mpr
            intro j hj
            have := htc j (List.mem_reverse.mp hj)
            simp
            omega
          have h2 : ([c, b, a] : List Nat).filter (fun i => decide (c + 1 ≤ i)) = [b, a] := by
            rw [List.filter_cons_of_neg (by simp)]
            rw [List.filter_cons_of_pos (by simp [Nat.succ_le]; omega)]
            rw [List.filter_cons_of_pos (by simp [Nat.succ_le]; omega)]
            rfl
          rw [h1, h2]
          rfl
        have pd2 := parse_domain_eq_two (d.drop (c + 1)) st (a - (c + 1)) (b - (c + 1))
          (by rw [hr2]; rfl)
        have hdd : (d.drop (c + 1)).drop ((b - (c + 1)) + 1) = d.drop (b + 1) := by
          rw [List.drop_drop]
          congr 1
          omega
        rw [hdd] at pd2
        rw [pd2, hpos]
        simp
      | true =>
        have pd' : parse_domain d st = (d.take b, d.drop (b + 1)) := by
          rw [pd, hpos]
          simp
        rw [pd']
        exact parse_domain_eq_one _ st _ (by rw [hr1]; rfl)

/-! ### The public-suffix-list loader `parse_tld` -/

/-- Whitespace test used by `str::trim`. The suffix-list lines of interest are
ASCII, where `Char.isWhitespace` agrees with Rust's `char::is_whitespace`. -/
def isWS (c : Char) : Bool := c.isWhitespace

/-- Embedding of `str::trim`: strip leading and trailing whitespace. -/
def trim (l : List Char) : List Char :=
  ((l.dropWhile isWS).reverse.dropWhile isWS).reverse

/-- The sentinel test `trimmed.starts_with("// ===BEGIN PRIVATE DOMAINS")`. -/
def sentinelB (t : List Char) : Bool :=
  "// ===BEGIN PRIVATE DOMAINS".data.isPrefixOf t

/-- The keep test `!trimmed.is_empty() && !trimmed.starts_with("//")`. -/
def keepLineB (t : List Char) : Bool :=
  !t.isEmpty && !("//".data.isPrefixOf t)

/-- Loop body of `lib::parse_tld` (src/lib/src/lib.rs:51-66): for each line,
trim it; stop at the sentinel; push `trimmed` plus a space separator for each
kept line. -/
def parse_tld_loop : List (List Char) → List Char
  | [] => []
  | l :: ls =>
    if sentinelB (trim l) then []
    else if keepLineB (trim l) then trim l ++ ' ' :: parse_tld_loop ls
    else parse_tld_loop ls

/-- Shallow embedding of `lib::parse_tld` (src/lib/src/lib.rs:51-69), with the
input byte stream already split into lines; the final `res.pop()` removing the
trailing space becomes `dropLast`. -/
def parse_tld (lines : List (List Char)) : List Char :=
  (parse_tld_loop lines).dropLast

theorem parse_tld_loop_eq (lines : List (List Char)) :
    parse_tld_loop lines
      = ((((lines.takeWhile (fun l => !(sentinelB (trim l)))).map trim).filter
          keepLineB).map (fun t => t ++ [' '])).flatten := by
  induction lines with
  | nil => rfl
  | cons l ls ih =>
    cases hs : sentinelB (trim l) with
    | true =>
      rw [parse_tld_loop, if_pos hs]
      simp [List.takeWhile_cons, hs]
    | false =>
      rw [parse_tld_loop, if_neg (by simp [hs])]
      cases hk : keepLineB (trim l) with
      | true => simp [List.takeWhile_cons, hs, hk, ih]
      | false => simp [List.takeWhile_cons, hs, hk, ih]

theorem flatten_seps_dropLast : ∀ (kept : List (List Char)),
    ((kept.map (fun t => t ++ [' '])).flatten).dropLast = joinSep ' ' kept
  | [] => rfl
  | [x] => by simp [joinSep, List.dropLast_concat]
  | x :: y :: rest => by
    have ih := flatten_seps_dropLast (y :: rest)
    have hne : (((y :: rest).map (fun t => t ++ [' '])).flatten) ≠ [] := by
      simp
    rw [List.map_cons, List.flatten_cons, List.dropLast_append_of_ne_nil _ hne, ih]
    simp [joinSep]

/-- C8: the loader's output corpus is exactly (the space-join of) the trimmed
non-blank lines that do not start with "//" and that precede the sentinel
line `// ===BEGIN PRIVATE DOMAINS`; lines at or after the sentinel contribute
nothing, whatever their content. -/
theorem parse_tld_exactly_kept (lines : List (List Char)) :
    parse_tld lines
      = joinSep ' ' (((lines.takeWhile (fun l => !(sentinelB (trim l)))).map trim).filter
          keepLineB) := by
  rw [parse_tld, parse_tld_loop_eq, flatten_seps_dropLast]

/-! ### A small regex engine

The two patterns `CRED_FIRST_RE` and `CRED_LAST_RE` of
src/leaks_indexer/src/main.rs:42-45 are embedded as syntax trees and matched
with backtracking priority: alternation prefers its left branch and
repetition prefers more, which is the rust `regex` crate's leftmost-first
(Perl-like) match and capture semantics for these patterns. Bounded
repetitions `x{lo,hi}` are desugared into nested alternations; `x+` is the
`plus` constructor. -/

inductive RE where
  | eps
  | cls (p : Char → Bool)
  | seq (a b : RE)
  | alt (a b : RE)
  | plus (a : RE)
  | group (i : Nat) (a : RE)

/-- All ways a regex can match a prefix of `s`, in backtracking priority
order. Each result is the remaining suffix together with the list of
(group index, captured characters) pairs. The `fuel` argument decreases on
every recursive call, making the definition structurally recursive (and hence
kernel-reducible); `bigFuel` below always suffices because every step either
descends into the syntax tree or re-enters `plus` on a strictly shorter
suffix. -/
def matchListF : Nat → RE → List Char → List (List Char × List (Nat × List Char))
  | 0, _, _ => []
  | _ + 1, .eps, s => [(s, [])]
  | _ + 1, .cls _, [] => []
  | _ + 1, .cls p, ch :: rest => if p ch then [(rest, [])] else []
  | fuel + 1, .seq a b, s =>
    ((matchListF fuel a s).map (fun rc =>
      (matchListF fuel b rc.1).map (fun rc2 => (rc2.1, rc.2 ++ rc2.2)))).flatten
  | fuel + 1, .alt a b, s => matchListF fuel a s ++ matchListF fuel b s
  | fuel + 1, .plus a, s =>
    ((matchListF fuel a s).map (fun rc =>
      if rc.1.length < s.length then
        ((matchListF fuel (.plus a) rc.1).map
          (fun rc2 => (rc2.1, rc.2 ++ rc2.2))) ++ [rc]
      else [rc])).flatten
  | fuel + 1, .group i a, s =>
    (matchListF fuel a s).map (fun rc =>
      (rc.1, rc.2 ++ [(i, s.take (s.length - rc.1.length))]))

def reSize : RE → Nat
  | .eps => 1
  | .cls _ => 1
  | .seq a b => reSize a + reSize b + 1
  | .alt a b => reSize a + reSize b + 1
  | .plus a => reSize a + 1
  | .group _ a => reSize a + 1

/-- Fuel that is always sufficient for `matchListF`: along any call chain the
string length never grows, every `plus` re-entry strictly shrinks it, and
between two re-entries the recursion descends the (finite) syntax tree. -/
def bigFuel (re : RE) (s : List Char) : Nat := (s.length + 2) * (reSize re + 2)

/-- Anchored match with captures: the first full match in backtracking
priority order, i.e. the capture assignment the rust `regex` crate reports
for the anchored patterns. -/
def reCaptures (re : RE) (s : List Char) : Option (List (Nat × List Char)) :=
  match (matchListF (bigFuel re s) re s).filter (fun rc => rc.1.isEmpty) with
  | [] => none
  | rc :: _ => some rc.2

/-! ### The two credential patterns -/

/-- Character class `[a-zA-Z0-9]`. -/
def alnumB (c : Char) : Bool :=
  ('a' ≤ c && c ≤ 'z') || ('A' ≤ c && c ≤ 'Z') || ('0' ≤ c && c ≤ '9')

/-- Character class `[a-zA-Z0-9-]`. -/
def alnumDashB (c : Char) : Bool := alnumB c || c == '-'

/-- Character class `[_\-\.]`. -/
def usepB (c : Char) : Bool := c == '_' || c == '-' || c == '.'

/-- Character class `\.`. -/
def dotClsB (c : Char) : Bool := c == '.'

/-- Character class `[:;]`. -/
def pwSepB (c : Char) : Bool := c == ':' || c == ';'

/-- Character class `@`. -/
def atClsB (c : Char) : Bool := c == '@'

/-- Regex `.` (any character except a line break; no `s` flag is set). -/
def anyB (c : Char) : Bool := c != '\n'

/-- Characters the domain group can capture: `[a-zA-Z0-9-]` and `.`. -/
def domainCharB (c : Char) : Bool := alnumB c || c == '-' || c == '.'

/-- Greedy bounded repetition `x{0,n}` desugared into alternations that
prefer one more repetition. -/
def reRepUpTo (a : RE) : Nat → RE
  | 0 => .eps
  | n + 1 => .alt (.seq a (reRepUpTo a n)) .eps

/-- The username subpattern `[a-zA-Z0-9]{1,35}(?:[_\-\.][a-zA-Z0-9]{0,35}){0,10}`. -/
def usernameRE : RE :=
  .seq (.seq (.cls alnumB) (reRepUpTo (.cls alnumB) 34))
    (reRepUpTo (.seq (.cls usepB) (reRepUpTo (.cls alnumB) 35)) 10)

/-- One interior domain label `[a-zA-Z0-9](?:[a-zA-Z0-9-]{0,61}[a-zA-Z0-9])?`. -/
def labelRE : RE :=
  .seq (.cls alnumB)
    (.alt (.seq (reRepUpTo (.cls alnumDashB) 61) (.cls alnumB)) .eps)

/-- The domain subpattern
`(?:[a-zA-Z0-9](?:[a-zA-Z0-9-]{0,61}[a-zA-Z0-9])?\.{1,2})+[a-zA-Z0-9][a-zA-Z0-9]{0,61}[a-zA-Z0-9]`. -/
def domainRE : RE :=
  .seq (.plus (.seq labelRE (.seq (.cls dotClsB) (reRepUpTo (.cls dotClsB) 1))))
    (.seq (.cls alnumB) (.seq (reRepUpTo (.cls alnumB) 61) (.cls alnumB)))

/-- The trailing `\.{0,10}`. -/
def trailDotsRE : RE := reRepUpTo (.cls dotClsB) 10

/-- The password subpattern `(.+)` without its group. -/
def passwordRE : RE := .plus (.cls anyB)

/-- `CRED_FIRST_RE` (src/leaks_indexer/src/main.rs:43):
`^(username)[:;](.+)@(domain)\.{0,10}$` with groups 1 = username,
2 = password, 3 = domain; anchoring is implicit in `reCaptures`, which only
accepts full matches starting at position 0. -/
def CRED_FIRST_RE : RE :=
  .seq (.group 1 usernameRE)
    (.seq (.cls pwSepB)
      (.seq (.group 2 passwordRE)
        (.seq (.cls atClsB)
          (.seq (.group 3 domainRE) trailDotsRE))))

/-- `CRED_LAST_RE` (src/leaks_indexer/src/main.rs:44):
`^(username)@(domain)\.{0,10}[:;](.+)$` with groups 1 = username, 2 = domain,
3 = password. -/
def CRED_LAST_RE : RE :=
  .seq (.group 1 usernameRE)
    (.seq (.cls atClsB)
      (.seq (.group 2 domainRE)
        (.seq trailDotsRE
          (.seq (.cls pwSepB) (.group 3 passwordRE)))))

/-! ### The credential extractor -/

/-- The four failure kinds of the extractor, mirroring the error strings of
src/leaks_indexer/src/main.rs: `noSeparator` is
"Failed to parse entry, separators were not found", `patternMismatch` is
"Failed to parse entry", `usernameTooLong` is "username to long" and
`emptyDomain` is "domain is empty". -/
inductive ParseError where
  | noSeparator
  | patternMismatch
  | usernameTooLong
  | emptyDomain
deriving DecidableEq, Repr

/-- Group extraction `caps.get(i).unwrap().as_str()`. In both patterns every
group is mandatory, so on a successful match the lookup never misses; the
default `[]` is therefore never returned on the paths the code reaches. -/
def capGet (caps : List (Nat × List Char)) (i : Nat) : List Char :=
  (List.lookup i caps).getD []

/-- The `credentials_first` arm of `regex_extract`
(src/leaks_indexer/src/main.rs:57-71): returns (username, domain, password)
with username = group 1, password = group 2, domain = group 3. -/
def credFirstExtract (entry : List Char) :
    Except ParseError (List Char × List Char × List Char) :=
  match reCaptures CRED_FIRST_RE entry with
  | some caps => .ok (capGet caps 1, capGet caps 3, capGet caps 2)
  | none => .error .patternMismatch

/-- The `!credentials_first` arm of `regex_extract`
(src/leaks_indexer/src/main.rs:72-87): returns (username, domain, password)
with username = group 1, domain = group 2, password = group 3. -/
def credLastExtract (entry : List Char) :
    Except ParseError (List Char × List Char × List Char) :=
  match reCaptures CRED_LAST_RE entry with
  | some caps => .ok (capGet caps 1, capGet caps 2, capGet caps 3)
  | none => .error .patternMismatch

/-- Shallow embedding of `regex_extract` (src/leaks_indexer/src/main.rs:47-90):
scan for the first occurrence of '@' or ':' (';' is not scanned); if none is
found fail with `noSeparator`; if the found character is ':' attempt only
`CRED_FIRST_RE`, otherwise attempt only `CRED_LAST_RE`. -/
def regex_extract (entry : List Char) :
    Except ParseError (List Char × List Char × List Char) :=
  match entry.find? (fun ch => ch == '@' || ch == ':') with
  | none => .error .noSeparator
  | some ch => if ch == ':' then credFirstExtract entry else credLastExtract entry

/-- Single-pass replacement of ".." by "." mirroring
`str::replace("..", ".")`: the scan resumes after each replacement, so
"..." becomes ".." (not "."). -/
def collapseDots : List Char → List Char
  | '.' :: '.' :: rest => '.' :: collapseDots rest
  | c :: rest => c :: collapseDots rest
  | [] => []

/-- ASCII lowercasing, agreeing with `str::to_lowercase` on the
alphanumeric/hyphen/dot domains the extractor produces. -/
def toLowerStr (l : List Char) : List Char := l.map Char.toLower

/-- Shallow embedding of `parse_entry` (src/leaks_indexer/src/main.rs:92-117):
extract, cap the username length at 40, trim the domain, reject an empty
domain, lowercase and dot-collapse it, then split it; the result tuple is
(username, password, subdomain, domain). -/
def parse_entry (entry : List Char) (st : List Char) :
    Except ParseError (List Char × List Char × List Char × List Char) :=
  match regex_extract entry with
  | .error e => .error e
  | .ok (username, domain, password) =>
    if 40 < username.length then .error .usernameTooLong
    else if (trim domain).isEmpty then .error .emptyDomain
    else
      let d2 := collapseDots (toLowerStr (trim domain))
      let sr := parse_domain d2 st
      .ok (username, password, sr.1, sr.2)

/-- Shallow embedding of `Indexer::entry_reader`
(src/leaks_indexer/src/main.rs:145-162) in plain mode, over decoded text
lines: each line is trimmed and parsed; a success appends one record
(domain, subdomain, username, password) to the tabular output, a failure
appends the untrimmed line verbatim plus a line break to the quarantine
sink. -/
def entry_reader (st : List Char) :
    List (List Char) →
      List (List Char × List Char × List Char × List Char) × List (List Char)
  | [] => ([], [])
  | line :: rest =>
    let r := entry_reader st rest
    match parse_entry (trim line) st with
    | .ok (u, p, sub, dom) => ((dom, sub, u, p) :: r.1, r.2)
    | .error _ => (r.1, (line ++ ['\n']) :: r.2)

/-! ### Soundness lemmas about the engine: consumption, character classes,
minimum progress, capture properties, group presence -/

/-- Every character class occurring in `re` is contained in `P`. -/
def REChars (P : Char → Prop) : RE → Prop
  | .eps => True
  | .cls q => ∀ ch, q ch = true → P ch
  | .seq a b => REChars P a ∧ REChars P b
  | .alt a b => REChars P a ∧ REChars P b
  | .plus a => REChars P a
  | .group _ a => REChars P a

theorem matchListF_consumed (P : Char → Prop) :
    ∀ (fuel : Nat) (re : RE) (s : List Char) rc,
      rc ∈ matchListF fuel re s → REChars P re →
      ∃ t, s = t ++ rc.1 ∧ ∀ ch ∈ t, P ch := by
  intro fuel
  induction fuel with
  | zero =>
    intro re s rc h _
    simp [matchListF] at h
  | succ fuel ih =>
    intro re s rc h hP
    cases re with
    | eps =>
      rw [matchListF] at h
      rcases List.mem_singleton.mp h with rfl
      exact ⟨[], rfl, by simp⟩
    | cls q =>
      cases s with
      | nil => simp [matchListF] at h
      | cons ch rest =>
        rw [matchListF] at h
        by_cases hq : q ch = true
        · rw [if_pos hq] at h
          rcases List.mem_singleton.mp h with rfl
          exact ⟨[ch], rfl, by
            intro x hx
            rcases List.mem_singleton.mp hx with rfl
            exact hP _ hq⟩
        · rw [if_neg hq] at h
          simp at h
    | seq a b =>
      rw [matchListF] at h
      rcases List.mem_flatten.mp h with ⟨l, hl, hrc⟩
      rcases List.mem_map.mp hl with ⟨rc1, hrc1, rfl⟩
      rcases List.mem_map.mp hrc with ⟨rc2, hrc2, rfl⟩
      rcases ih a s rc1 hrc1 hP.1 with ⟨t1, ht1, hpt1⟩
      rcases ih b rc1.1 rc2 hrc2 hP.2 with ⟨t2, ht2, hpt2⟩
      refine ⟨t1 ++ t2, ?_, ?_⟩
      · rw [ht1, ht2]
        simp
      · intro x hx
        rcases List.mem_append.mp hx with hx | hx
        exacts [hpt1 x hx, hpt2 x hx]
    | alt a b =>
      rw [matchListF] at h
      rcases List.mem_append.mp h with h | h
      exacts [ih a s rc h hP.1, ih b s rc h hP.2]
    | plus a =>
      rw [matchListF] at h
      rcases List.mem_flatten.mp h with ⟨l, hl, hrc⟩
      rcases List.mem_map.mp hl with ⟨rc1, hrc1, rfl⟩
      by_cases hlen : rc1.1.length < s.length
      · rw [if_pos hlen] at hrc
        rcases List.mem_append.mp hrc with hm | hm
        · rcases List.mem_map.mp hm with ⟨rc2, hrc2, rfl⟩
          rcases ih a s rc1 hrc1 hP with ⟨t1, ht1, hpt1⟩
          rcases ih (.plus a) rc1.1 rc2 hrc2 hP with ⟨t2, ht2, hpt2⟩
          refine ⟨t1 ++ t2, ?_, ?_⟩
          · rw [ht1, ht2]
            simp
          · intro x hx
            rcases List.mem_append.mp hx with hx | hx
            exacts [hpt1 x hx, hpt2 x hx]
        · rcases List.mem_singleton.mp hm with rfl
          exact ih a s rc hrc1 hP
      · rw [if_neg hlen] at hrc
        rcases List.mem_singleton.mp hrc with rfl
        exact ih a s rc hrc1 hP
    | group i a =>
      rw [matchListF] at h
      rcases List.mem_map.mp h with ⟨rc1, hrc1, rfl⟩
      rcases ih a s rc1 hrc1 hP with ⟨t1, ht1, hpt1⟩
      exact ⟨t1, ht1, hpt1⟩

theorem REChars_true (re : RE) : REChars (fun _ => True) re := by
  induction re <;> simp [REChars, *]

theorem matchListF_length_le {fuel : Nat} {re : RE} {s : List Char} {rc}
    (h : rc ∈ matchListF fuel re s) : rc.1.length ≤ s.length := by
  rcases matchListF_consumed (fun _ => True) fuel re s rc h (REChars_true re) with
    ⟨t, ht, -⟩
  rw [ht]
  simp

/-- Whether `re` can only match non-empty strings. -/
def minOneB : RE → Bool
  | .eps => false
  | .cls _ => true
  | .seq a b => minOneB a || minOneB b
  | .alt a b => minOneB a && minOneB b
  | .plus a => minOneB a
  | .group _ a => minOneB a

theorem matchListF_minOne :
    ∀ (fuel : Nat) (re : RE) (s : List Char) rc,
      rc ∈ matchListF fuel re s → minOneB re = true → rc.1.length < s.length := by
  intro fuel
  induction fuel with
  | zero =>
    intro re s rc h _
    simp [matchListF] at h
  | succ fuel ih =>
    intro re s rc h hm
    cases re with
    | eps => simp [minOneB] at hm
    | cls q =>
      cases s with
      | nil => simp [matchListF] at h
      | cons ch rest =>
        rw [matchListF] at h
        by_cases hq : q ch = true
        · rw [if_pos hq] at h
          rcases List.mem_singleton.mp h with rfl
          simp
        · rw [if_neg hq] at h
          simp at h
    | seq a b =>
      rw [matchListF] at h
      rcases List.mem_flatten.mp h with ⟨l, hl, hrc⟩
      rcases List.mem_map.mp hl with ⟨rc1, hrc1, rfl⟩
      rcases List.mem_map.mp hrc with ⟨rc2, hrc2, rfl⟩
      rcases Bool.or_eq_true_iff.mp (by simpa [minOneB] using hm) with hma | hmb
      · have h1 := ih a s rc1 hrc1 hma
        have h2 := matchListF_length_le hrc2
        simpa using Nat.lt_of_le_of_lt h2 h1
      · have h1 := matchListF_length_le hrc1
        have h2 := ih b rc1.1 rc2 hrc2 hmb
        simpa using Nat.lt_of_lt_of_le h2 h1
    | alt a b =>
      rw [matchListF] at h
      rcases Bool.and_eq_true_iff.mp (by simpa [minOneB] using hm) with ⟨hma, hmb⟩
      rcases List.mem_append.mp h with h | h
      exacts [ih a s rc h hma, ih b s rc h hmb]
    | plus a =>
      rw [matchListF] at h
      rcases List.mem_flatten.mp h with ⟨l, hl, hrc⟩
      rcases List.mem_map.mp hl with ⟨rc1, hrc1, rfl⟩
      have hma : minOneB a = true := by simpa [minOneB] using hm
      by_cases hlen : rc1.1.length < s.length
      · rw [if_pos hlen] at hrc
        rcases List.mem_append.mp hrc with hmm | hmm
        · rcases List.mem_map.mp hmm with ⟨rc2, hrc2, rfl⟩
          have h2 := matchListF_length_le hrc2
          simpa using Nat.lt_of_le_of_lt h2 hlen
        · rcases List.mem_singleton.mp hmm with rfl
          exact ih a s rc hrc1 hma
      · rw [if_neg hlen] at hrc
        rcases List.mem_singleton.mp hrc with rfl
        exact ih a s rc hrc1 hma
    | group i a =>
      rw [matchListF] at h
      rcases List.mem_map.mp h with ⟨rc1, hrc1, rfl⟩
      have hma : minOneB a = true := by simpa [minOneB] using hm
      simpa using ih a s rc1 hrc1 hma

/-- Every capture any group of `re` can produce satisfies `γ` at that group's
index. -/
def CapsSpec (γ : Nat → List Char → Prop) : RE → Prop
  | .eps => True
  | .cls _ => True
  | .seq a b => CapsSpec γ a ∧ CapsSpec γ b
  | .alt a b => CapsSpec γ a ∧ CapsSpec γ b
  | .plus a => CapsSpec γ a
  | .group i a =>
    CapsSpec γ a ∧
      ∀ fuel s rc, rc ∈ matchListF fuel a s → γ i (s.take (s.length - rc.1.length))

theorem matchListF_caps (γ : Nat → List Char → Prop) :
    ∀ (fuel : Nat) (re : RE) (s : List Char) rc,
      rc ∈ matchListF fuel re s → CapsSpec γ re → ∀ q ∈ rc.2, γ q.1 q.2 := by
  intro fuel
  induction fuel with
  | zero =>
    intro re s rc h _
    simp [matchListF] at h
  | succ fuel ih =>
    intro re s rc h hG
    cases re with
    | eps =>
      rw [matchListF] at h
      rcases List.mem_singleton.mp h with rfl
      simp
    | cls q =>
      cases s with
      | nil => simp [matchListF] at h
      | cons ch rest =>
        rw [matchListF] at h
        by_cases hq : q ch = true
        · rw [if_pos hq] at h
          rcases List.mem_singleton.mp h with rfl
          simp
        · rw [if_neg hq] at h
          simp at h
    | seq a b =>
      rw [matchListF] at h
      rcases List.mem_flatten.mp h with ⟨l, hl, hrc⟩
      rcases List.mem_map.mp hl with ⟨rc1, hrc1, rfl⟩
      rcases List.mem_map.mp hrc with ⟨rc2, hrc2, rfl⟩
      intro q hq
      rcases List.mem_append.mp hq with hq | hq
      exacts [ih a s rc1 hrc1 hG.1 q hq, ih b rc1.1 rc2 hrc2 hG.2 q hq]
    | alt a b =>
      rw [matchListF] at h
      rcases List.mem_append.mp h with h | h
      exacts [ih a s rc h hG.1, ih b s rc h hG.2]
    | plus a =>
      rw [matchListF] at h
      rcases List.mem_flatten.mp h with ⟨l, hl, hrc⟩
      rcases List.mem_map.mp hl with ⟨rc1, hrc1, rfl⟩
      by_cases hlen : rc1.1.length < s.length
      · rw [if_pos hlen] at hrc
        rcases List.mem_append.mp hrc with hmm | hmm
        · rcases List.mem_map.mp hmm with ⟨rc2, hrc2, rfl⟩
          intro q hq
          rcases List.mem_append.mp hq with hq | hq
          exacts [ih a s rc1 hrc1 hG q hq, ih (.plus a) rc1.1 rc2 hrc2 hG q hq]
        · rcases List.mem_singleton.mp hmm with rfl
          exact ih a s rc hrc1 hG
      · rw [if_neg hlen] at hrc
        rcases List.mem_singleton.mp hrc with rfl
        exact ih a s rc hrc1 hG
    | group i a =>
      rw [matchListF] at h
      rcases List.mem_map.mp h with ⟨rc1, hrc1, rfl⟩
      intro q hq
      rcases List.mem_append.mp hq with hq | hq
      · exact ih a s rc1 hrc1 hG.1 q hq
      · rcases List.mem_singleton.mp hq with rfl
        exact hG.2 fuel s rc1 hrc1

/-- Whether `re` contains no capture group. -/
def groupFreeB : RE → Bool
  | .eps => true
  | .cls _ => true
  | .seq a b => groupFreeB a && groupFreeB b
  | .alt a b => groupFreeB a && groupFreeB b
  | .plus a => groupFreeB a
  | .group _ _ => false

theorem CapsSpec_of_groupFree (γ : Nat → List Char → Prop) :
    ∀ (re : RE), groupFreeB re = true → CapsSpec γ re := by
  intro re
  induction re with
  | eps => intro _; trivial
  | cls q => intro _; trivial
  | seq a b iha ihb =>
    intro h
    rcases Bool.and_eq_true_iff.mp (by simpa [groupFreeB] using h) with ⟨h1, h2⟩
    exact ⟨iha h1, ihb h2⟩
  | alt a b iha ihb =>
    intro h
    rcases Bool.and_eq_true_iff.mp (by simpa [groupFreeB] using h) with ⟨h1, h2⟩
    exact ⟨iha h1, ihb h2⟩
  | plus a iha =>
    intro h
    exact iha (by simpa [groupFreeB] using h)
  | group i a iha =>
    intro h
    simp [groupFreeB] at h

/-- Whether group `i` participates in every match of `re`. -/
def hasGroupB (i : Nat) : RE → Bool
  | .eps => false
  | .cls _ => false
  | .seq a b => hasGroupB i a || hasGroupB i b
  | .alt a b => hasGroupB i a && hasGroupB i b
  | .plus a => hasGroupB i a
  | .group j a => (j == i) || hasGroupB i a

theorem matchListF_hasGroup (i : Nat) :
    ∀ (fuel : Nat) (re : RE) (s : List Char) rc,
      rc ∈ matchListF fuel re s → hasGroupB i re = true → ∃ v, (i, v) ∈ rc.2 := by
  intro fuel
  induction fuel with
  | zero =>
    intro re s rc h _
    simp [matchListF] at h
  | succ fuel ih =>
    intro re s rc h hg
    cases re with
    | eps => simp [hasGroupB] at hg
    | cls q => simp [hasGroupB] at hg
    | seq a b =>
      rw [matchListF] at h
      rcases List.mem_flatten.mp h with ⟨l, hl, hrc⟩
      rcases List.mem_map.mp hl with ⟨rc1, hrc1, rfl⟩
      rcases List.mem_map.mp hrc with ⟨rc2, hrc2, rfl⟩
      rcases Bool.or_eq_true_iff.mp (by simpa [hasGroupB] using hg) with hga | hgb
      · rcases ih a s rc1 hrc1 hga with ⟨v, hv⟩
        exact ⟨v, by simp [hv]⟩
      · rcases ih b rc1.1 rc2 hrc2 hgb with ⟨v, hv⟩
        exact ⟨v, by simp [hv]⟩
    | alt a b =>
      rw [matchListF] at h
      rcases Bool.and_eq_true_iff.mp (by simpa [hasGroupB] using hg) with ⟨hga, hgb⟩
      rcases List.mem_append.mp h with h | h
      exacts [ih a s rc h hga, ih b s rc h hgb]
    | plus a =>
      rw [matchListF] at h
      rcases List.mem_flatten.mp h with ⟨l, hl, hrc⟩
      rcases List.mem_map.mp hl with ⟨rc1, hrc1, rfl⟩
      have hga : hasGroupB i a = true := by simpa [hasGroupB] using hg
      by_cases hlen : rc1.1.length < s.length
      · rw [if_pos hlen] at hrc
        rcases List.mem_append.mp hrc with hmm | hmm
        · rcases List.mem_map.mp hmm with ⟨rc2, hrc2, rfl⟩
          rcases ih a s rc1 hrc1 hga with ⟨v, hv⟩
          exact ⟨v, by simp [hv]⟩
        · rcases List.mem_singleton.mp hmm with rfl
          exact ih a s rc hrc1 hga
      · rw [if_neg hlen] at hrc
        rcases List.mem_singleton.mp hrc with rfl
        exact ih a s rc hrc1 hga
    | group j a =>
      rw [matchListF] at h
      rcases List.mem_map.mp h with ⟨rc1, hrc1, rfl⟩
      have hg' : j = i ∨ hasGroupB i a = true := by simpa [hasGroupB] using hg
      rcases hg' with hji | hga
      · refine ⟨s.take (s.length - rc1.1.length), ?_⟩
        simp [hji]
      · rcases ih a s rc1 hrc1 hga with ⟨v, hv⟩
        exact ⟨v, by simp [hv]⟩

theorem lookup_mem {i : Nat} {v : List Char} :
    ∀ (l : List (Nat × List Char)), List.lookup i l = some v → (i, v) ∈ l
  | [], h => by simp [List.lookup] at h
  | (k, w) :: rest, h => by
    rw [List.lookup] at h
    cases hik : (i == k) with
    | true =>
      rw [hik] at h
      have hk : i = k := by simpa using hik
      have hw : w = v := by simpa using h
      simp [hk, hw]
    | false =>
      rw [hik] at h
      have := lookup_mem rest h
      simp [this]

theorem lookup_isSome_of_mem {i : Nat} {v : List Char} :
    ∀ (l : List (Nat × List Char)), (i, v) ∈ l → ∃ w, List.lookup i l = some w
  | [], h => by simp at h
  | (k, w) :: rest, h => by
    rw [List.lookup]
    cases hik : (i == k) with
    | true => exact ⟨w, rfl⟩
    | false =>
      rcases List.mem_cons.mp h with heq | hmem
      · have : i = k := by
          have := congrArg Prod.fst heq
          simpa using this
        rw [this] at hik
        simp at hik
      · exact lookup_isSome_of_mem rest hmem

/-! ### The domain group captures only non-empty alnum/hyphen/dot strings -/

theorem REChars_reRepUpTo (P : Char → Prop) (a : RE) (h : REChars P a) :
    ∀ n, REChars P (reRepUpTo a n)
  | 0 => trivial
  | n + 1 => ⟨⟨h, REChars_reRepUpTo P a h n⟩, trivial⟩

theorem alnum_dom (ch : Char) (h : alnumB ch = true) : domainCharB ch = true := by
  simp [domainCharB, h]

theorem alnumDash_dom (ch : Char) (h : alnumDashB ch = true) : domainCharB ch = true := by
  have h' : alnumB ch = true ∨ (ch == '-') = true := by
    simpa [alnumDashB] using h
  rcases h' with h' | h' <;> simp [domainCharB, h']

theorem dot_dom (ch : Char) (h : dotClsB ch = true) : domainCharB ch = true := by
  have h' : ch = '.' := by simpa [dotClsB] using h
  subst h'
  decide

theorem REChars_domainRE : REChars (fun ch => domainCharB ch = true) domainRE :=
  ⟨⟨⟨alnum_dom,
     ⟨⟨REChars_reRepUpTo (fun ch => domainCharB ch = true) (.cls alnumDashB)
         alnumDash_dom 61, alnum_dom⟩, trivial⟩⟩,
    ⟨dot_dom,
     REChars_reRepUpTo (fun ch => domainCharB ch = true) (.cls dotClsB) dot_dom 1⟩⟩,
   ⟨alnum_dom,
    ⟨REChars_reRepUpTo (fun ch => domainCharB ch = true) (.cls alnumB) alnum_dom 61,
     alnum_dom⟩⟩⟩

theorem domain_capture (fuel : Nat) (s : List Char) (rc)
    (h : rc ∈ matchListF fuel domainRE s) :
    s.take (s.length - rc.1.length) ≠ [] ∧
      ∀ ch ∈ s.take (s.length - rc.1.length), domainCharB ch = true := by
  rcases matchListF_consumed (fun ch => domainCharB ch = true) fuel domainRE s rc h
      REChars_domainRE with ⟨t, ht, hp⟩
  have hlen : rc.1.length < s.length := matchListF_minOne fuel domainRE s rc h rfl
  have htake : s.take (s.length - rc.1.length) = t := by
    rw [ht]
    have hlt : (t ++ rc.1).length - rc.1.length = t.length := by simp
    rw [hlt]
    exact take_len_append t rc.1
  rw [htake]
  refine ⟨?_, hp⟩
  intro hnil
  rw [hnil] at ht
  simp at ht
  rw [ht] at hlen
  exact Nat.lt_irrefl _ hlen

theorem capsSpec_credFirst :
    CapsSpec (fun i cs => i = 3 → cs ≠ [] ∧ ∀ ch ∈ cs, domainCharB ch = true)
      CRED_FIRST_RE :=
  ⟨⟨CapsSpec_of_groupFree _ _ rfl, fun _ _ _ _ h13 => absurd h13 (by decide)⟩,
   trivial,
   ⟨CapsSpec_of_groupFree _ _ rfl, fun _ _ _ _ h23 => absurd h23 (by decide)⟩,
   trivial,
   ⟨CapsSpec_of_groupFree _ _ rfl, fun fuel s rc hrc _ => domain_capture fuel s rc hrc⟩,
   CapsSpec_of_groupFree _ _ rfl⟩

theorem capsSpec_credLast :
    CapsSpec (fun i cs => i = 2 → cs ≠ [] ∧ ∀ ch ∈ cs, domainCharB ch = true)
      CRED_LAST_RE :=
  ⟨⟨CapsSpec_of_groupFree _ _ rfl, fun _ _ _ _ h12 => absurd h12 (by decide)⟩,
   trivial,
   ⟨CapsSpec_of_groupFree _ _ rfl, fun fuel s rc hrc _ => domain_capture fuel s rc hrc⟩,
   CapsSpec_of_groupFree _ _ rfl,
   trivial,
   ⟨CapsSpec_of_groupFree _ _ rfl, fun _ _ _ _ h32 => absurd h32 (by decide)⟩⟩

theorem credFirstExtract_domain (entry u d p : List Char)
    (h : credFirstExtract entry = .ok (u, d, p)) :
    d ≠ [] ∧ ∀ ch ∈ d, domainCharB ch = true := by
  unfold credFirstExtract at h
  cases hcap : reCaptures CRED_FIRST_RE entry with
  | none =>
    rw [hcap] at h
    simp at h
  | some caps =>
    rw [hcap] at h
    have hinj : capGet caps 1 = u ∧ capGet caps 3 = d ∧ capGet caps 2 = p := by
      simpa using h
    unfold reCaptures at hcap
    cases hfil : (matchListF (bigFuel CRED_FIRST_RE entry) CRED_FIRST_RE entry).filter
        (fun rc => rc.1.isEmpty) with
    | nil =>
      rw [hfil] at hcap
      simp at hcap
    | cons rc rest =>
      rw [hfil] at hcap
      have hcaps : rc.2 = caps := by simpa using hcap
      have hrcmem : rc ∈ matchListF (bigFuel CRED_FIRST_RE entry) CRED_FIRST_RE entry :=
        List.mem_of_mem_filter (hfil ▸ List.mem_cons_self rc rest)
      rcases matchListF_hasGroup 3 _ _ _ _ hrcmem rfl with ⟨v, hv⟩
      rcases lookup_isSome_of_mem rc.2 hv with ⟨w, hw⟩
      have hwmem := lookup_mem rc.2 hw
      have hdom := matchListF_caps _ _ _ _ _ hrcmem capsSpec_credFirst (3, w) hwmem rfl
      have hdw : d = w := by
        rw [← hinj.2.1, ← hcaps]
        simp [capGet, hw]
      rw [hdw]
      exact hdom

theorem credLastExtract_domain (entry u d p : List Char)
    (h : credLastExtract entry = .ok (u, d, p)) :
    d ≠ [] ∧ ∀ ch ∈ d, domainCharB ch = true := by
  unfold credLastExtract at h
  cases hcap : reCaptures CRED_LAST_RE entry with
  | none =>
    rw [hcap] at h
    simp at h
  | some caps =>
    rw [hcap] at h
    have hinj : capGet caps 1 = u ∧ capGet caps 2 = d ∧ capGet caps 3 = p := by
      simpa using h
    unfold reCaptures at hcap
    cases hfil : (matchListF (bigFuel CRED_LAST_RE entry) CRED_LAST_RE entry).filter
        (fun rc => rc.1.isEmpty) with
    | nil =>
      rw [hfil] at hcap
      simp at hcap
    | cons rc rest =>
      rw [hfil] at hcap
      have hcaps : rc.2 = caps := by simpa using hcap
      have hrcmem : rc ∈ matchListF (bigFuel CRED_LAST_RE entry) CRED_LAST_RE entry :=
        List.mem_of_mem_filter (hfil ▸ List.mem_cons_self rc rest)
      rcases matchListF_hasGroup 2 _ _ _ _ hrcmem rfl with ⟨v, hv⟩
      rcases lookup_isSome_of_mem rc.2 hv with ⟨w, hw⟩
      have hwmem := lookup_mem rc.2 hw
      have hdom := matchListF_caps _ _ _ _ _ hrcmem capsSpec_credLast (2, w) hwmem rfl
      have hdw : d = w := by
        rw [← hinj.2.1, ← hcaps]
        simp [capGet, hw]
      rw [hdw]
      exact hdom

theorem dropWhile_eq_self_of (p : Char → Bool) :
    ∀ (l : List Char), (∀ ch ∈ l, p ch = false) → l.dropWhile p = l
  | [], _ => rfl
  | c :: cs, h => by
    simp [List.dropWhile_cons, h c (by simp)]

theorem trim_eq_self (l : List Char) (h : ∀ ch ∈ l, isWS ch = false) : trim l = l := by
  unfold trim
  rw [dropWhile_eq_self_of _ l h]
  rw [dropWhile_eq_self_of _ l.reverse (fun ch hch => h ch (List.mem_reverse.mp hch))]
  exact List.reverse_reverse l

theorem domainChar_not_ws (ch : Char) (h : domainCharB ch = true) : isWS ch = false := by
  cases hw : isWS ch with
  | false => rfl
  | true =>
    exfalso
    have hcases : ((ch = ' ' ∨ ch = '\t') ∨ ch = '\r') ∨ ch = '\n' := by
      simpa [isWS, Char.isWhitespace] using hw
    rcases hcases with ((h' | h') | h') | h' <;> (subst h'; exact absurd h (by decide))

/-- Shared fact: a successful extraction yields a domain capture that is
non-empty, drawn from `[a-zA-Z0-9-.]`, and fixed by `trim`. -/
theorem regex_extract_domain (entry u d p : List Char)
    (h : regex_extract entry = .ok (u, d, p)) :
    d ≠ [] ∧ (∀ ch ∈ d, domainCharB ch = true) ∧ trim d = d := by
  unfold regex_extract at h
  cases hf : entry.find? (fun ch => ch == '@' || ch == ':') with
  | none =>
    rw [hf] at h
    simp at h
  | some ch =>
    rw [hf] at h
    dsimp only at h
    by_cases hc : (ch == ':') = true
    · rw [if_pos hc] at h
      rcases credFirstExtract_domain entry u d p h with ⟨h1, h2⟩
      exact ⟨h1, h2, trim_eq_self d (fun c hc2 => domainChar_not_ws c (h2 c hc2))⟩
    · rw [if_neg hc] at h
      rcases credLastExtract_domain entry u d p h with ⟨h1, h2⟩
      exact ⟨h1, h2, trim_eq_self d (fun c hc2 => domainChar_not_ws c (h2 c hc2))⟩

/-! ### Claim theorems about the extractor -/

theorem credFirstExtract_ne_emptyDomain (entry : List Char) :
    credFirstExtract entry ≠ .error .emptyDomain := by
  unfold credFirstExtract
  cases reCaptures CRED_FIRST_RE entry <;> simp

theorem credLastExtract_ne_emptyDomain (entry : List Char) :
    credLastExtract entry ≠ .error .emptyDomain := by
  unfold credLastExtract
  cases reCaptures CRED_LAST_RE entry <;> simp

theorem regex_extract_ne_emptyDomain (entry : List Char) :
    regex_extract entry ≠ .error .emptyDomain := by
  unfold regex_extract
  cases entry.find? (fun ch => ch == '@' || ch == ':') with
  | none => simp
  | some ch =>
    dsimp only
    by_cases hc : (ch == ':') = true
    · rw [if_pos hc]
      exact credFirstExtract_ne_emptyDomain entry
    · rw [if_neg hc]
      exact credLastExtract_ne_emptyDomain entry

/-- C10: the EmptyDomain failure is unreachable: `parse_entry` never returns
the "domain is empty" error, and whenever regex extraction succeeds the
captured domain contains no whitespace and is non-empty after trimming. -/
theorem emptyDomain_unreachable (entry st : List Char) :
    parse_entry entry st ≠ .error .emptyDomain ∧
    ∀ u d p, regex_extract entry = .ok (u, d, p) →
      (∀ ch ∈ d, isWS ch = false) ∧ trim d ≠ [] := by
  constructor
  · intro hcontra
    unfold parse_entry at hcontra
    cases hre : regex_extract entry with
    | error e =>
      rw [hre] at hcontra
      dsimp only at hcontra
      have he : e = ParseError.emptyDomain := by simpa using hcontra
      rw [he] at hre
      exact regex_extract_ne_emptyDomain entry hre
    | ok t =>
      obtain ⟨u, d, p⟩ := t
      rw [hre] at hcontra
      dsimp only at hcontra
      by_cases hu : 40 < u.length
      · rw [if_pos hu] at hcontra
        exact absurd hcontra (by simp)
      · rw [if_neg hu] at hcontra
        rcases regex_extract_domain entry u d p hre with ⟨h1, _, h3⟩
        have hne : (trim d).isEmpty = false := by
          rw [h3]
          simpa [List.isEmpty_iff] using h1
        rw [if_neg (by simp [hne])] at hcontra
        exact absurd hcontra (by simp)
  · intro u d p hre
    rcases regex_extract_domain entry u d p hre with ⟨h1, h2, h3⟩
    refine ⟨fun ch hch => domainChar_not_ws ch (h2 ch hch), ?_⟩
    rw [h3]
    exact h1

/-- Witness for C10 at a concrete successfully-extracted line. -/
theorem emptyDomain_unreachable_witness :
    parse_entry "u:p@a.com".data "com net co.uk".data ≠ .error .emptyDomain ∧
    trim "a.com".data ≠ [] := by
  refine ⟨(emptyDomain_unreachable "u:p@a.com".data "com net co.uk".data).1, ?_⟩
  exact ((emptyDomain_unreachable "u:p@a.com".data "com net co.uk".data).2
    "u".data "a.com".data "p".data rfl).2

/-- C6: for every line whose selected pattern matches, a username capture of
at most 40 characters parses successfully, and one of 41 or more characters
fails with `usernameTooLong`; the cap is checked after the pattern and
independently of the pattern's own bound. -/
theorem username_length_cap (entry u d p st : List Char)
    (h : regex_extract entry = .ok (u, d, p)) :
    (u.length ≤ 40 → ∃ sub dom, parse_entry entry st = .ok (u, p, sub, dom)) ∧
    (41 ≤ u.length → parse_entry entry st = .error .usernameTooLong) := by
  constructor
  · intro hle
    unfold parse_entry
    rw [h]
    dsimp only
    rw [if_neg (by omega : ¬ 40 < u.length)]
    rcases regex_extract_domain entry u d p h with ⟨h1, _, h3⟩
    have hne : (trim d).isEmpty = false := by
      rw [h3]
      simpa [List.isEmpty_iff] using h1
    rw [if_neg (by simp [hne])]
    exact ⟨_, _, rfl⟩
  · intro hge
    unfold parse_entry
    rw [h]
    dsimp only
    rw [if_pos (by omega : 40 < u.length)]

/-- Witness for C6: a 41-character username (35 word characters, one dot
group separator, 5 more) is rejected with `usernameTooLong` even though the
pattern itself matched. -/
theorem username_length_cap_witness :
    parse_entry "aaaaaaaaaaaaaaaaaaaaaaaaaaaaaaaaaaa.aaaaa:p@a.com".data
        "com net co.uk".data = .error .usernameTooLong := by
  have h : regex_extract "aaaaaaaaaaaaaaaaaaaaaaaaaaaaaaaaaaa.aaaaa:p@a.com".data
      = .ok ("aaaaaaaaaaaaaaaaaaaaaaaaaaaaaaaaaaa.aaaaa".data, "a.com".data, "p".data) := rfl
  exact (username_length_cap _ _ _ _ "com net co.uk".data h).2 (by decide)

/-- C7: no fallback between layouts: when the line contains a separator the
scanner recognises (':' or '@'), only the selected layout's pattern is tried,
and a mismatch yields `patternMismatch` regardless of the other pattern. -/
theorem no_layout_fallback (entry : List Char) (ch : Char)
    (hf : entry.find? (fun c => c == '@' || c == ':') = some ch)
    (hnm : reCaptures (if ch == ':' then CRED_FIRST_RE else CRED_LAST_RE) entry = none) :
    regex_extract entry = .error .patternMismatch := by
  unfold regex_extract
  rw [hf]
  dsimp only
  by_cases hc : (ch == ':') = true
  · rw [if_pos hc]
    rw [if_pos hc] at hnm
    unfold credFirstExtract
    rw [hnm]
  · rw [if_neg hc]
    rw [if_neg hc] at hnm
    unfold credLastExtract
    rw [hnm]

/-- Witness for C7: on "u;p@a.com" the scanner selects Layout B (first
recognised separator '@'), Layout B's pattern fails, and extraction reports
`patternMismatch` even though Layout A's pattern matches the line. -/
theorem no_layout_fallback_witness :
    regex_extract "u;p@a.com".data = .error .patternMismatch ∧
    (reCaptures CRED_FIRST_RE "u;p@a.com".data).isSome = true := by
  constructor
  · exact no_layout_fallback "u;p@a.com".data '@' rfl rfl
  · rfl

/-- Counterexample to C2: in "user;pass@dom.com" the ';' precedes the '@',
yet the extractor does not parse the line under Layout A — the separator scan
ignores ';', selects Layout B via the '@', and fails with
`patternMismatch`. -/
theorem layout_semicolon_counterexample :
    regex_extract "user;pass@dom.com".data = .error .patternMismatch ∧
    regex_extract "user;pass@dom.com".data
      ≠ .ok ("user".data, "dom.com".data, "pass".data) := by
  have h1 : regex_extract "user;pass@dom.com".data = .error .patternMismatch := rfl
  refine ⟨h1, ?_⟩
  rw [h1]
  intro hcon
  exact Except.noConfusion hcon

/-- C2 amended: the layout selector scans only for ':' and '@' (';' is not a
selector character): any line without ':' but with '@' is attempted under
Layout B whatever ';' it contains, and in particular
username;password@domain fails with `patternMismatch`. -/
theorem layout_select_amended :
    (∀ entry : List Char, ':' ∉ entry → '@' ∈ entry →
       regex_extract entry = credLastExtract entry) ∧
    regex_extract "user;pass@dom.com".data = .error .patternMismatch := by
  constructor
  · intro entry hno hyes
    unfold regex_extract
    cases hf : entry.find? (fun c => c == '@' || c == ':') with
    | none =>
      exfalso
      have hnone := List.find?_eq_none.mp hf '@' hyes
      simp at hnone
    | some c =>
      have hpred := List.find?_some hf
      have hmem := List.mem_of_find?_eq_some hf
      have hc : c = '@' ∨ c = ':' := by simpa using hpred
      rcases hc with rfl | rfl
      · dsimp only
        rw [if_neg (by decide)]
      · exact absurd hmem hno
  · rfl

/-- Witness for C2's amended claim at a concrete ':'-free line with '@'. -/
theorem layout_select_amended_witness :
    regex_extract "a;b@c".data = credLastExtract "a;b@c".data :=
  (layout_select_amended).1 "a;b@c".data (by decide) (by decide)

/-- Counterexample to C5: a line whose domain part is followed by three
trailing dots still matches — the claim says three or more trailing dots do
not match, but the pattern's trailing part is `\.{0,10}`. -/
theorem trailing_dots_counterexample :
    regex_extract "u:p@a.com...".data = .ok ("u".data, "a.com".data, "p".data) := rfl

/-! ### Constructor and destructor lemmas for the engine, fuel monotonicity,
and extension of matches by an appended suffix (used for C5) -/

theorem matchListF_seq_decomp {fuel : Nat} {a b : RE} {s : List Char} {rc}
    (h : rc ∈ matchListF fuel (.seq a b) s) :
    ∃ f, f + 1 ≤ fuel ∧ ∃ rc1 rc2, rc1 ∈ matchListF f a s ∧
      rc2 ∈ matchListF f b rc1.1 ∧ rc = (rc2.1, rc1.2 ++ rc2.2) := by
  cases fuel with
  | zero => simp [matchListF] at h
  | succ f =>
    rw [matchListF] at h
    rcases List.mem_flatten.mp h with ⟨l, hl, hrc⟩
    rcases List.mem_map.mp hl with ⟨rc1, hrc1, rfl⟩
    rcases List.mem_map.mp hrc with ⟨rc2, hrc2, rfl⟩
    exact ⟨f, Nat.le_refl _, rc1, rc2, hrc1, hrc2, rfl⟩

theorem matchListF_group_decomp {fuel : Nat} {i : Nat} {a : RE} {s : List Char} {rc}
    (h : rc ∈ matchListF fuel (.group i a) s) :
    ∃ f, f + 1 ≤ fuel ∧ ∃ rc1, rc1 ∈ matchListF f a s ∧
      rc = (rc1.1, rc1.2 ++ [(i, s.take (s.length - rc1.1.length))]) := by
  cases fuel with
  | zero => simp [matchListF] at h
  | succ f =>
    rw [matchListF] at h
    rcases List.mem_map.mp h with ⟨rc1, hrc1, rfl⟩
    exact ⟨f, Nat.le_refl _, rc1, hrc1, rfl⟩

theorem matchListF_cls_decomp {fuel : Nat} {p : Char → Bool} {s : List Char} {rc}
    (h : rc ∈ matchListF fuel (.cls p) s) :
    ∃ ch rest, s = ch :: rest ∧ p ch = true ∧ rc = (rest, []) := by
  cases fuel with
  | zero => simp [matchListF] at h
  | succ f =>
    cases s with
    | nil => simp [matchListF] at h
    | cons ch rest =>
      rw [matchListF] at h
      by_cases hp : p ch = true
      · rw [if_pos hp] at h
        rcases List.mem_singleton.mp h with rfl
        exact ⟨ch, rest, rfl, hp, rfl⟩
      · rw [if_neg hp] at h
        simp at h

theorem matchListF_seq_intro {fuel : Nat} {a b : RE} {s : List Char} {rc1 rc2}
    (h1 : rc1 ∈ matchListF fuel a s) (h2 : rc2 ∈ matchListF fuel b rc1.1) :
    (rc2.1, rc1.2 ++ rc2.2) ∈ matchListF (fuel + 1) (.seq a b) s := by
  rw [matchListF]
  exact List.mem_flatten.mpr
    ⟨(matchListF fuel b rc1.1).map (fun rc2 => (rc2.1, rc1.2 ++ rc2.2)),
     List.mem_map.mpr ⟨rc1, h1, rfl⟩, List.mem_map.mpr ⟨rc2, h2, rfl⟩⟩

theorem matchListF_suffix {fuel : Nat} {re : RE} {s : List Char} {rc}
    (h : rc ∈ matchListF fuel re s) : ∃ t, s = t ++ rc.1 := by
  rcases matchListF_consumed (fun _ => True) fuel re s rc h (REChars_true re) with
    ⟨t, ht, -⟩
  exact ⟨t, ht⟩

theorem matchListF_mono :
    ∀ (fuel : Nat) {fuel' : Nat}, fuel ≤ fuel' →
      ∀ (re : RE) (s : List Char) rc,
        rc ∈ matchListF fuel re s → rc ∈ matchListF fuel' re s := by
  intro fuel
  induction fuel with
  | zero =>
    intro fuel' _ re s rc h
    simp [matchListF] at h
  | succ fuel ih =>
    intro fuel' hle re s rc h
    cases fuel' with
    | zero => omega
    | succ fuel'' =>
      have hle' : fuel ≤ fuel'' := by omega
      cases re with
      | eps =>
        rw [matchListF] at h ⊢
        exact h
      | cls p =>
        cases s with
        | nil => simp [matchListF] at h
        | cons ch rest =>
          rw [matchListF] at h ⊢
          exact h
      | seq a b =>
        rw [matchListF] at h ⊢
        rcases List.mem_flatten.mp h with ⟨l, hl, hrc⟩
        rcases List.mem_map.mp hl with ⟨rc1, hrc1, rfl⟩
        rcases List.mem_map.mp hrc with ⟨rc2, hrc2, rfl⟩
        exact List.mem_flatten.mpr
          ⟨(matchListF fuel'' b rc1.1).map (fun rc2 => (rc2.1, rc1.2 ++ rc2.2)),
           List.mem_map.mpr ⟨rc1, ih hle' a s rc1 hrc1, rfl⟩,
           List.mem_map.mpr ⟨rc2, ih hle' b rc1.1 rc2 hrc2, rfl⟩⟩
      | alt a b =>
        rw [matchListF] at h ⊢
        rcases List.mem_append.mp h with h | h
        · exact List.mem_append_left _ (ih hle' a s rc h)
        · exact List.mem_append_right _ (ih hle' b s rc h)
      | plus a =>
        rw [matchListF] at h ⊢
        rcases List.mem_flatten.mp h with ⟨l, hl, hrc⟩
        rcases List.mem_map.mp hl with ⟨rc1, hrc1, rfl⟩
        refine List.mem_flatten.mpr
          ⟨if rc1.1.length < s.length then
             ((matchListF fuel'' (.plus a) rc1.1).map
               (fun rc2 => (rc2.1, rc1.2 ++ rc2.2))) ++ [rc1]
           else [rc1],
           List.mem_map.mpr ⟨rc1, ih hle' a s rc1 hrc1, rfl⟩, ?_⟩
        by_cases hlen : rc1.1.length < s.length
        · rw [if_pos hlen] at hrc ⊢
          rcases List.mem_append.mp hrc with hm | hm
          · rcases List.mem_map.mp hm with ⟨rc2, hrc2, rfl⟩
            exact List.mem_append_left _
              (List.mem_map.mpr ⟨rc2, ih hle' (.plus a) rc1.1 rc2 hrc2, rfl⟩)
          · exact List.mem_append_right _ hm
        · rw [if_neg hlen] at hrc ⊢
          exact hrc
      | group i a =>
        rw [matchListF] at h ⊢
        rcases List.mem_map.mp h with ⟨rc1, hrc1, rfl⟩
        exact List.mem_map.mpr ⟨rc1, ih hle' a s rc1 hrc1, rfl⟩

theorem matchListF_extend :
    ∀ (fuel : Nat) (re : RE) (s t : List Char) rc,
      rc ∈ matchListF fuel re s →
      (rc.1 ++ t, rc.2) ∈ matchListF fuel re (s ++ t) := by
  intro fuel
  induction fuel with
  | zero =>
    intro re s t rc h
    simp [matchListF] at h
  | succ fuel ih =>
    intro re s t rc h
    cases re with
    | eps =>
      rw [matchListF] at h ⊢
      rcases List.mem_singleton.mp h with rfl
      simp
    | cls p =>
      cases s with
      | nil => simp [matchListF] at h
      | cons ch rest =>
        rw [matchListF] at h
        by_cases hp : p ch = true
        · rw [if_pos hp] at h
          rcases List.mem_singleton.mp h with rfl
          rw [List.cons_append, matchListF, if_pos hp]
          simp
        · rw [if_neg hp] at h
          simp at h
    | seq a b =>
      rw [matchListF] at h
      rcases List.mem_flatten.mp h with ⟨l, hl, hrc⟩
      rcases List.mem_map.mp hl with ⟨rc1, hrc1, rfl⟩
      rcases List.mem_map.mp hrc with ⟨rc2, hrc2, rfl⟩
      have h1 := ih a s t rc1 hrc1
      have h2 := ih b rc1.1 t rc2 hrc2
      have := matchListF_seq_intro h1 h2
      simpa using this
    | alt a b =>
      rw [matchListF] at h ⊢
      rcases List.mem_append.mp h with h | h
      · exact List.mem_append_left _ (ih a s t rc h)
      · exact List.mem_append_right _ (ih b s t rc h)
    | plus a =>
      rw [matchListF] at h
      rcases List.mem_flatten.mp h with ⟨l, hl, hrc⟩
      rcases List.mem_map.mp hl with ⟨rc1, hrc1, rfl⟩
      have h1 := ih a s t rc1 hrc1
      rw [matchListF]
      refine List.mem_flatten.mpr
        ⟨if (rc1.1 ++ t).length < (s ++ t).length then
           ((matchListF fuel (.plus a) (rc1.1 ++ t)).map
             (fun rc2 => (rc2.1, rc1.2 ++ rc2.2))) ++ [(rc1.1 ++ t, rc1.2)]
         else [(rc1.1 ++ t, rc1.2)],
         List.mem_map.mpr ⟨(rc1.1 ++ t, rc1.2), h1, rfl⟩, ?_⟩
      have hlen_iff : (rc1.1 ++ t).length < (s ++ t).length ↔ rc1.1.length < s.length := by
        simp
      by_cases hlen : rc1.1.length < s.length
      · rw [if_pos (hlen_iff.mpr hlen)]
        rw [if_pos hlen] at hrc
        rcases List.mem_append.mp hrc with hm | hm
        · rcases List.mem_map.mp hm with ⟨rc2, hrc2, rfl⟩
          exact List.mem_append_left _
            (List.mem_map.mpr ⟨(rc2.1 ++ t, rc2.2), ih (.plus a) rc1.1 t rc2 hrc2, rfl⟩)
        · rcases List.mem_singleton.mp hm with rfl
          exact List.mem_append_right _ (by simp)
      · rw [if_neg (fun hcon => hlen (hlen_iff.mp hcon))]
        rw [if_neg hlen] at hrc
        rcases List.mem_singleton.mp hrc with rfl
        simp
    | group i a =>
      rw [matchListF] at h
      rcases List.mem_map.mp h with ⟨rc1, hrc1, rfl⟩
      have h1 := ih a s t rc1 hrc1
      rw [matchListF]
      refine List.mem_map.mpr ⟨(rc1.1 ++ t, rc1.2), h1, ?_⟩
      have hle : s.length - rc1.1.length ≤ s.length := Nat.sub_le _ _
      have hcap : (s ++ t).take ((s ++ t).length - (rc1.1 ++ t).length)
          = s.take (s.length - rc1.1.length) := by
        have hlen1 : rc1.1.length ≤ s.length := matchListF_length_le hrc1
        have he : (s ++ t).length - (rc1.1 ++ t).length = s.length - rc1.1.length := by
          simp only [List.length_append]
          omega
        rw [he, List.take_append_of_le_length hle]
      rw [hcap]

/-- The trailing `\.{0,10}` subpattern consumes only dots, at most `n` of
them. -/
theorem repDots_consumed :
    ∀ (fuel : Nat) (n : Nat) (s : List Char) rc,
      rc ∈ matchListF fuel (reRepUpTo (.cls dotClsB) n) s →
      ∃ j, j ≤ n ∧ s = List.replicate j '.' ++ rc.1 := by
  intro fuel
  induction fuel with
  | zero =>
    intro n s rc h
    simp [matchListF] at h
  | succ fuel ih =>
    intro n s rc h
    cases n with
    | zero =>
      rw [reRepUpTo, matchListF] at h
      rcases List.mem_singleton.mp h with rfl
      exact ⟨0, by omega, by simp⟩
    | succ n =>
      rw [reRepUpTo, matchListF] at h
      rcases List.mem_append.mp h with h | h
      · rcases matchListF_seq_decomp h with ⟨f, hf, rc1, rc2, h1, h2, hrceq⟩
        rcases matchListF_cls_decomp h1 with ⟨ch, rest, hs, hch, hrc1⟩
        have h2' : rc2 ∈ matchListF fuel (reRepUpTo (.cls dotClsB) n) rc1.1 :=
          matchListF_mono f (by omega) _ _ _ h2
        rcases ih n rc1.1 rc2 h2' with ⟨j, hj, hrest⟩
        have hdot : ch = '.' := by simpa [dotClsB] using hch
        refine ⟨j + 1, by omega, ?_⟩
        rw [hs, hdot, List.replicate_succ, hrceq]
        rw [hrc1] at hrest
        simp only [List.cons_append]
        rw [← hrest]
      · cases fuel with
        | zero => simp [matchListF] at h
        | succ f2 =>
          rw [matchListF] at h
          rcases List.mem_singleton.mp h with rfl
          exact ⟨0, by omega, by simp⟩

/-- The trailing subpattern can consume exactly `k ≤ n` dots, leaving
nothing. -/
theorem repDots_full :
    ∀ (k n fuel : Nat), k ≤ n → 2 * k + 2 ≤ fuel →
      (([], []) : List Char × List (Nat × List Char))
        ∈ matchListF fuel (reRepUpTo (.cls dotClsB) n) (List.replicate k '.') := by
  intro k
  induction k with
  | zero =>
    intro n fuel _ hfuel
    cases fuel with
    | zero => omega
    | succ f =>
      cases n with
      | zero =>
        rw [reRepUpTo, matchListF]
        simp
      | succ n =>
        cases f with
        | zero => omega
        | succ f' =>
          rw [reRepUpTo, matchListF]
          refine List.mem_append_right _ ?_
          rw [matchListF]
          simp
  | succ k ih =>
    intro n fuel hn hfuel
    cases n with
    | zero => omega
    | succ n =>
      cases fuel with
      | zero => omega
      | succ f =>
        cases f with
        | zero => omega
        | succ f2 =>
          rw [reRepUpTo, matchListF]
          refine List.mem_append_left _ ?_
          have hcls : ((List.replicate k '.', []) : List Char × List (Nat × List Char))
              ∈ matchListF f2 (.cls dotClsB) (List.replicate (k + 1) '.') := by
            cases f2 with
            | zero => omega
            | succ f3 =>
              rw [List.replicate_succ, matchListF, if_pos (by decide : dotClsB '.' = true)]
              simp
          have hrest : (([], []) : List Char × List (Nat × List Char))
              ∈ matchListF f2 (reRepUpTo (.cls dotClsB) n) (List.replicate k '.') :=
            ih n f2 (by omega) (by omega)
          have := matchListF_seq_intro hcls hrest
          simpa using this

/-- Every string the domain subpattern consumes ends in an alphanumeric
character. -/
theorem domainRE_ends_alnum {fuel : Nat} {s : List Char} {rc}
    (h : rc ∈ matchListF fuel domainRE s) :
    ∃ t ch, alnumB ch = true ∧ s = t ++ ch :: rc.1 := by
  rcases matchListF_seq_decomp h with ⟨f1, _, rcP, rcF, hP, hF, hrceq⟩
  rcases matchListF_seq_decomp hF with ⟨f2, _, rcF1, rcF2, hF1, hF2, hFeq⟩
  rcases matchListF_cls_decomp hF1 with ⟨c1, r1, hr1, hc1, hrcF1⟩
  rcases matchListF_seq_decomp hF2 with ⟨f3, _, rcF3, rcF4, hF3, hF4, hF2eq⟩
  rcases matchListF_cls_decomp hF4 with ⟨ch, rest, hsplit, hch, hrcF4⟩
  rcases matchListF_suffix hP with ⟨tP, htP⟩
  rcases matchListF_suffix hF3 with ⟨t3, ht3⟩
  have hrc_fst : rc.1 = rest := by
    simp [hrceq, hFeq, hF2eq, hrcF4]
  refine ⟨tP ++ c1 :: t3, ch, hch, ?_⟩
  rw [hrc_fst, htP, hr1]
  have ht3' : r1 = t3 ++ rcF3.1 := by
    rw [hrcF1] at ht3
    simpa using ht3
  rw [ht3', hsplit]
  simp

/-- A full match in the engine's result list at the fuel `reCaptures` uses
makes `reCaptures` succeed. -/
theorem reCaptures_ne_none_of_full {re : RE} {s : List Char} {rc}
    (hm : rc ∈ matchListF (bigFuel re s) re s) (hf : rc.1 = []) :
    reCaptures re s ≠ none := by
  have hmem : rc ∈ (matchListF (bigFuel re s) re s).filter (fun rc => rc.1.isEmpty) :=
    List.mem_filter.mpr ⟨hm, by simp [hf]⟩
  unfold reCaptures
  cases hfil : (matchListF (bigFuel re s) re s).filter (fun rc => rc.1.isEmpty) with
  | nil =>
    rw [hfil] at hmem
    simp at hmem
  | cons a l => simp

theorem full_of_reCaptures_ne_none {re : RE} {s : List Char}
    (h : reCaptures re s ≠ none) :
    ∃ rc ∈ matchListF (bigFuel re s) re s, rc.1 = [] := by
  unfold reCaptures at h
  cases hfil : (matchListF (bigFuel re s) re s).filter (fun rc => rc.1.isEmpty) with
  | nil =>
    rw [hfil] at h
    simp at h
  | cons a l =>
    have ha : a ∈ (matchListF (bigFuel re s) re s).filter (fun rc => rc.1.isEmpty) :=
      hfil ▸ List.mem_cons_self a l
    rcases List.mem_filter.mp ha with ⟨hmem, hempty⟩
    exact ⟨a, hmem, by simpa [List.isEmpty_iff] using hempty⟩

theorem drop_append_replicate (base : List Char) (m : Nat) (c : Char) (i : Nat)
    (hi : base.length ≤ i) :
    (base ++ List.replicate m c).drop i = List.replicate (m - (i - base.length)) c := by
  have he : i = base.length + (i - base.length) := by omega
  rw [he]
  simp [List.drop_append, List.drop_replicate]

theorem getLast?_append_replicate (t : List Char) (j : Nat) (hj : 1 ≤ j) (c : Char) :
    (t ++ List.replicate j c).getLast? = some c := by
  rw [List.getLast?_append]
  cases j with
  | zero => omega
  | succ j' => simp [List.getLast?_replicate]

theorem find?_append_some {p : Char → Bool} {l : List Char} {c : Char}
    (h : l.find? p = some c) (t : List Char) : (l ++ t).find? p = some c := by
  rw [List.find?_append, h]
  rfl

/-- Any full match of `CRED_FIRST_RE` decomposes into its six sequential
pieces, with the trailing piece consuming everything that remains. -/
theorem credFirst_full_decomp {fuel : Nat} {s : List Char} {rc}
    (hm : rc ∈ matchListF fuel CRED_FIRST_RE s) (hfull : rc.1 = []) :
    ∃ rc1 rc2 rc3 rc4 rc5 rc6,
      rc1 ∈ matchListF fuel (.group 1 usernameRE) s ∧
      rc2 ∈ matchListF fuel (.cls pwSepB) rc1.1 ∧
      rc3 ∈ matchListF fuel (.group 2 passwordRE) rc2.1 ∧
      rc4 ∈ matchListF fuel (.cls atClsB) rc3.1 ∧
      rc5 ∈ matchListF fuel (.group 3 domainRE) rc4.1 ∧
      rc6 ∈ matchListF fuel trailDotsRE rc5.1 ∧ rc6.1 = [] := by
  unfold CRED_FIRST_RE at hm
  rcases matchListF_seq_decomp hm with ⟨g1, hg1, rc1, rcA, h1, hA, hrceq⟩
  rcases matchListF_seq_decomp hA with ⟨g2, hg2, rc2, rcB, h2, hB, hAeq⟩
  rcases matchListF_seq_decomp hB with ⟨g3, hg3, rc3, rcC, h3, hC, hBeq⟩
  rcases matchListF_seq_decomp hC with ⟨g4, hg4, rc4, rcD, h4, hD, hCeq⟩
  rcases matchListF_seq_decomp hD with ⟨g5, hg5, rc5, rc6, h5, h6, hDeq⟩
  have h6e : rc6.1 = [] := by
    have he : rc.1 = rc6.1 := by simp [hrceq, hAeq, hBeq, hCeq, hDeq]
    rw [← he, hfull]
  exact ⟨rc1, rc2, rc3, rc4, rc5, rc6,
    matchListF_mono g1 (by omega) _ _ _ h1,
    matchListF_mono g2 (by omega) _ _ _ h2,
    matchListF_mono g3 (by omega) _ _ _ h3,
    matchListF_mono g4 (by omega) _ _ _ h4,
    matchListF_mono g5 (by omega) _ _ _ h5,
    matchListF_mono g5 (by omega) _ _ _ h6, h6e⟩

/-- A line ending in eleven dots can never match `CRED_FIRST_RE`: the
trailing subpattern absorbs at most ten dots and the domain subpattern would
have to end in a dot. -/
theorem credFirst_no_trail11 (base : List Char) :
    reCaptures CRED_FIRST_RE (base ++ List.replicate 11 '.') = none := by
  by_contra hne
  rcases full_of_reCaptures_ne_none hne with ⟨rc, hm, hfull⟩
  rcases credFirst_full_decomp hm hfull with
    ⟨rc1, rc2, rc3, rc4, rc5, rc6, h1, h2, h3, h4, h5, h6, h6e⟩
  rcases repDots_consumed _ 10 _ _ h6 with ⟨j, hj, hr5⟩
  rw [h6e, List.append_nil] at hr5
  rcases matchListF_group_decomp h5 with ⟨f5, _, rc5d, h5d, h5eq⟩
  have h5fst : rc5d.1 = rc5.1 := by simp [h5eq]
  rcases domainRE_ends_alnum h5d with ⟨t, ch, hch, hsplit⟩
  rcases matchListF_suffix h1 with ⟨t1, ht1⟩
  rcases matchListF_suffix h2 with ⟨t2, ht2⟩
  rcases matchListF_suffix h3 with ⟨t3, ht3⟩
  rcases matchListF_suffix h4 with ⟨t4, ht4⟩
  have hs : base ++ List.replicate 11 '.'
      = (t1 ++ (t2 ++ (t3 ++ (t4 ++ t)))) ++ ch :: List.replicate j '.' := by
    rw [ht1, ht2, ht3, ht4, hsplit, h5fst, hr5]
    simp
  have hXlen : base.length ≤ (t1 ++ (t2 ++ (t3 ++ (t4 ++ t)))).length := by
    have hlen := congrArg List.length hs
    simp only [List.length_append, List.length_replicate, List.length_cons] at hlen
    simp only [List.length_append]
    omega
  have h1' : (base ++ List.replicate 11 '.').drop
      (t1 ++ (t2 ++ (t3 ++ (t4 ++ t)))).length = ch :: List.replicate j '.' := by
    rw [hs]
    exact drop_len_append _ _
  have h2' : (base ++ List.replicate 11 '.').drop
      (t1 ++ (t2 ++ (t3 ++ (t4 ++ t)))).length
      = List.replicate (11 - ((t1 ++ (t2 ++ (t3 ++ (t4 ++ t)))).length - base.length)) '.' :=
    drop_append_replicate base 11 '.' _ hXlen
  have hcmp := h1'.symm.trans h2'
  cases hmval : 11 - ((t1 ++ (t2 ++ (t3 ++ (t4 ++ t)))).length - base.length) with
  | zero =>
    rw [hmval] at hcmp
    simp at hcmp
  | succ m' =>
    rw [hmval, List.replicate_succ] at hcmp
    have hchdot : ch = '.' := by
      have hh := congrArg List.head? hcmp
      simpa using hh
    rw [hchdot] at hch
    exact absurd hch (by decide)

/-- Appending up to ten trailing dots to a line that `CRED_FIRST_RE` accepts
and that does not itself end in a dot keeps it matching. -/
theorem credFirst_trail_extend (base : List Char) (k : Nat) (hk : k ≤ 10)
    (hlast : base.getLast? ≠ some '.')
    (hmatch : reCaptures CRED_FIRST_RE base ≠ none) :
    reCaptures CRED_FIRST_RE (base ++ List.replicate k '.') ≠ none := by
  cases k with
  | zero => simpa using hmatch
  | succ k' =>
    rcases full_of_reCaptures_ne_none hmatch with ⟨rc, hm, hfull⟩
    rcases credFirst_full_decomp hm hfull with
      ⟨rc1, rc2, rc3, rc4, rc5, rc6, h1, h2, h3, h4, h5, h6, h6e⟩
    rcases repDots_consumed _ 10 _ _ h6 with ⟨j, hj, hr5⟩
    rw [h6e, List.append_nil] at hr5
    have hj0 : j = 0 := by
      by_contra hjne
      rcases matchListF_suffix h1 with ⟨t1, ht1⟩
      rcases matchListF_suffix h2 with ⟨t2, ht2⟩
      rcases matchListF_suffix h3 with ⟨t3, ht3⟩
      rcases matchListF_suffix h4 with ⟨t4, ht4⟩
      rcases matchListF_suffix h5 with ⟨t5, ht5⟩
      have hb : base = (t1 ++ (t2 ++ (t3 ++ (t4 ++ t5)))) ++ List.replicate j '.' := by
        rw [ht1, ht2, ht3, ht4, ht5, hr5]
        simp
      have hlastdot : base.getLast? = some '.' := by
        rw [hb]
        exact getLast?_append_replicate _ j (by omega) '.'
      exact hlast hlastdot
    rw [hj0] at hr5
    simp at hr5
    have hsize : 9 ≤ reSize CRED_FIRST_RE := by decide
    have hB22 : 22 ≤ bigFuel CRED_FIRST_RE base := by
      unfold bigFuel
      calc (22 : Nat) = 2 * 11 := by norm_num
        _ ≤ (base.length + 2) * (reSize CRED_FIRST_RE + 2) :=
            Nat.mul_le_mul (by omega) (by omega)
    have e1 := matchListF_extend (bigFuel CRED_FIRST_RE base) (.group 1 usernameRE)
      base (List.replicate (k' + 1) '.') rc1 h1
    have e2 := matchListF_extend (bigFuel CRED_FIRST_RE base) (.cls pwSepB)
      rc1.1 (List.replicate (k' + 1) '.') rc2 h2
    have e3 := matchListF_extend (bigFuel CRED_FIRST_RE base) (.group 2 passwordRE)
      rc2.1 (List.replicate (k' + 1) '.') rc3 h3
    have e4 := matchListF_extend (bigFuel CRED_FIRST_RE base) (.cls atClsB)
      rc3.1 (List.replicate (k' + 1) '.') rc4 h4
    have e5 := matchListF_extend (bigFuel CRED_FIRST_RE base) (.group 3 domainRE)
      rc4.1 (List.replicate (k' + 1) '.') rc5 h5
    have htr0 : (([], []) : List Char × List (Nat × List Char))
        ∈ matchListF (bigFuel CRED_FIRST_RE base) trailDotsRE
          (List.replicate (k' + 1) '.') := by
      apply matchListF_mono (2 * (k' + 1) + 2) (by omega) _ _ _
      exact repDots_full (k' + 1) 10 (2 * (k' + 1) + 2) hk (Nat.le_refl _)
    have htr : (([], []) : List Char × List (Nat × List Char))
        ∈ matchListF (bigFuel CRED_FIRST_RE base) trailDotsRE
          (rc5.1 ++ List.replicate (k' + 1) '.') := by
      rw [hr5]
      simpa using htr0
    have m5 := matchListF_seq_intro e5 htr
    have m4 := matchListF_seq_intro
      (matchListF_mono (bigFuel CRED_FIRST_RE base) (Nat.le_succ _) _ _ _ e4) m5
    have m3 := matchListF_seq_intro
      (matchListF_mono (bigFuel CRED_FIRST_RE base) (by omega) _ _ _ e3) m4
    have m2 := matchListF_seq_intro
      (matchListF_mono (bigFuel CRED_FIRST_RE base) (by omega) _ _ _ e2) m3
    have m1 := matchListF_seq_intro
      (matchListF_mono (bigFuel CRED_FIRST_RE base) (by omega) _ _ _ e1) m2
    have hfin : bigFuel CRED_FIRST_RE base + 5
        ≤ bigFuel CRED_FIRST_RE (base ++ List.replicate (k' + 1) '.') := by
      unfold bigFuel
      have hlen : (base ++ List.replicate (k' + 1) '.').length
          = base.length + (k' + 1) := by simp
      rw [hlen]
      have hexp : (base.length + (k' + 1) + 2) * (reSize CRED_FIRST_RE + 2)
          = (base.length + 2) * (reSize CRED_FIRST_RE + 2)
            + (k' + 1) * (reSize CRED_FIRST_RE + 2) := by ring
      rw [hexp]
      have h11 : 11 ≤ (k' + 1) * (reSize CRED_FIRST_RE + 2) := by
        calc (11 : Nat) = 1 * 11 := by norm_num
          _ ≤ (k' + 1) * (reSize CRED_FIRST_RE + 2) :=
              Nat.mul_le_mul (by omega) (by omega)
      omega
    have mfin := matchListF_mono (bigFuel CRED_FIRST_RE base + 5) hfin _ _ _ m1
    exact reCaptures_ne_none_of_full mfin rfl

theorem regex_extract_colon_sel (entry : List Char)
    (hf : entry.find? (fun c => c == '@' || c == ':') = some ':') :
    regex_extract entry = credFirstExtract entry := by
  unfold regex_extract
  rw [hf]
  dsimp only
  rw [if_pos (by decide)]

theorem credFirstExtract_ok_iff (entry : List Char) :
    (∃ u d p, credFirstExtract entry = .ok (u, d, p))
      ↔ reCaptures CRED_FIRST_RE entry ≠ none := by
  unfold credFirstExtract
  cases hcap : reCaptures CRED_FIRST_RE entry with
  | none => simp
  | some caps =>
    constructor
    · intro _
      simp
    · intro _
      exact ⟨_, _, _, rfl⟩

/-- C5 amended: the credentials-first pattern tolerates zero to ten trailing
separator dots, not one to two: every line that the pattern accepts and that
does not itself end in a dot still parses successfully after zero to ten
trailing dots are appended, and every line ending in eleven or more trailing
dots fails the pattern with `patternMismatch`. -/
theorem trailing_dots_amended :
    (∀ (base : List Char) (k : Nat), k ≤ 10 →
       base.find? (fun c => c == '@' || c == ':') = some ':' →
       base.getLast? ≠ some '.' →
       (∃ u d p, regex_extract base = .ok (u, d, p)) →
       ∃ u d p, regex_extract (base ++ List.replicate k '.') = .ok (u, d, p)) ∧
    (∀ base : List Char,
       (base ++ List.replicate 11 '.').find? (fun c => c == '@' || c == ':')
         = some ':' →
       regex_extract (base ++ List.replicate 11 '.') = .error .patternMismatch) := by
  constructor
  · intro base k hk hsel hlast hok
    have hbase_cf : regex_extract base = credFirstExtract base :=
      regex_extract_colon_sel base hsel
    have hne : reCaptures CRED_FIRST_RE base ≠ none := by
      apply (credFirstExtract_ok_iff base).mp
      rcases hok with ⟨u, d, p, hok⟩
      exact ⟨u, d, p, by rw [← hbase_cf]; exact hok⟩
    have hne' := credFirst_trail_extend base k hk hlast hne
    have hsel' : (base ++ List.replicate k '.').find? (fun c => c == '@' || c == ':')
        = some ':' := find?_append_some hsel _
    have hcf : regex_extract (base ++ List.replicate k '.')
        = credFirstExtract (base ++ List.replicate k '.') :=
      regex_extract_colon_sel _ hsel'
    rcases (credFirstExtract_ok_iff _).mpr hne' with ⟨u, d, p, hok'⟩
    exact ⟨u, d, p, by rw [hcf]; exact hok'⟩
  · intro base hsel
    have hcf := regex_extract_colon_sel _ hsel
    rw [hcf]
    unfold credFirstExtract
    rw [credFirst_no_trail11 base]

/-- Witness for C5's amended claim: three appended dots still parse, eleven
appended dots fail, at a concrete otherwise-valid line. -/
theorem trailing_dots_amended_witness :
    (∃ u d p, regex_extract ("u:p@a.com".data ++ List.replicate 3 '.')
       = .ok (u, d, p)) ∧
    regex_extract ("u:p@a.com".data ++ List.replicate 11 '.')
      = .error .patternMismatch := by
  constructor
  · exact (trailing_dots_amended).1 "u:p@a.com".data 3 (by decide) (by rfl) (by decide)
      ⟨"u".data, "a.com".data, "p".data, rfl⟩
  · exact (trailing_dots_amended).2 "u:p@a.com".data (by rfl)

/-- C3: in plain mode every decoded input line contributes exactly one
tabular record (on parse success) or exactly one verbatim quarantine line
with a trailing line break (on failure) — never both, never neither: the two
outputs are the two `filterMap`s of the line list and their lengths sum to
the number of lines. -/
theorem entry_reader_partition (st : List Char) (lines : List (List Char)) :
    entry_reader st lines
      = (lines.filterMap (fun l =>
           match parse_entry (trim l) st with
           | .ok (u, p, sub, dom) => some (dom, sub, u, p)
           | .error _ => none),
         lines.filterMap (fun l =>
           match parse_entry (trim l) st with
           | .ok _ => none
           | .error _ => some (l ++ ['\n']))) ∧
    (entry_reader st lines).1.length + (entry_reader st lines).2.length
      = lines.length := by
  induction lines with
  | nil => exact ⟨rfl, rfl⟩
  | cons l ls ih =>
    rcases ih with ⟨ih1, ih2⟩
    cases hp : parse_entry (trim l) st with
    | ok t =>
      obtain ⟨u, p2, sub, dom⟩ := t
      constructor
      · simp only [entry_reader, hp, List.filterMap_cons]
        rw [ih1]
      · simp only [entry_reader, hp, List.length_cons]
        omega
    | error e =>
      constructor
      · simp only [entry_reader, hp, List.filterMap_cons]
        rw [ih1]
      · simp only [entry_reader, hp, List.length_cons]
        omega

/-! ### Byte-level model of `parse_domain`: UTF-8 slicing safety

Rust strings are UTF-8 byte strings and the slice operations of
`parse_domain` use byte indices; a slice whose boundary is out of range or
not on a character boundary panics. This model works on `List Nat` byte
strings: `sliceTo`/`sliceFrom` return `none` exactly when the corresponding
Rust slice would panic, and the totality theorem shows `none` is never
produced on valid UTF-8 input. -/

/-- UTF-8 continuation byte test (`0x80..0xBF`). -/
def isCont (b : Nat) : Bool := decide (128 ≤ b ∧ b < 192)

/-- UTF-8 validity checker; `k` counts continuation bytes still expected.
Surrogate/overlong refinements are omitted: the predicate is slightly wider
than strict UTF-8, which only strengthens the totality theorem below. -/
def utf8Loop : List Nat → Nat → Bool
  | [], 0 => true
  | [], _ + 1 => false
  | b :: rest, 0 =>
    if b < 128 then utf8Loop rest 0
    else if 194 ≤ b ∧ b ≤ 223 then utf8Loop rest 1
    else if 224 ≤ b ∧ b ≤ 239 then utf8Loop rest 2
    else if 240 ≤ b ∧ b ≤ 244 then utf8Loop rest 3
    else false
  | b :: rest, k + 1 => isCont b && utf8Loop rest k

/-- A byte string is valid UTF-8. -/
def validUtf8 (bs : List Nat) : Bool := utf8Loop bs 0

/-- Rust's `str::is_char_boundary` on the byte string model. -/
def isBoundary (bs : List Nat) (i : Nat) : Bool :=
  i == 0 || i == bs.length ||
    (match bs[i]? with
     | some b => !(isCont b)
     | none => false)

/-- `&s[..i]`: `none` models the panic on an invalid boundary. -/
def sliceTo (bs : List Nat) (i : Nat) : Option (List Nat) :=
  if isBoundary bs i then some (bs.take i) else none

/-- `&s[i..]`: `none` models the panic on an invalid boundary. -/
def sliceFrom (bs : List Nat) (i : Nat) : Option (List Nat) :=
  if isBoundary bs i then some (bs.drop i) else none

/-- Byte positions of '.' (0x2E), mirroring `match_indices('.')`: in valid
UTF-8 the byte 46 occurs exactly where the character '.' does. -/
def dotIndicesB : List Nat → List Nat
  | [] => []
  | b :: rest =>
    if b = 46 then 0 :: (dotIndicesB rest).map (· + 1)
    else (dotIndicesB rest).map (· + 1)

/-- Byte-level substring positions, mirroring `SuffixTable::positions`. -/
def positionsB (text query : List Nat) : List Nat :=
  if query.isEmpty then []
  else (List.range text.length).filter (fun i => query.isPrefixOf (text.drop i))

/-- Byte-level embedding of `lib::parse_domain` with panics made explicit:
every slice goes through `sliceTo`/`sliceFrom`. -/
def parse_domain_utf8 (domain st : List Nat) : Option (List Nat × List Nat) :=
  match (dotIndicesB domain).reverse.take 3 with
  | _ :: i2 :: rest =>
    let sd := i2
    let sdn := sd + 1
    let tdp := match rest with
      | i3 :: _ => (i3, i3 + 1)
      | [] => (0, 0)
    match sliceFrom domain sdn with
    | none => none
    | some tld_part =>
      if (positionsB st tld_part).isEmpty then
        match sliceTo domain sd, sliceFrom domain sdn with
        | some s1, some s2 => some (s1, s2)
        | _, _ => none
      else
        match sliceTo domain tdp.1, sliceFrom domain tdp.2 with
        | some s1, some s2 => some (s1, s2)
        | _, _ => none
  | _ => some ([], domain)

theorem dotIndicesB_mem : ∀ (bs : List Nat) (i : Nat), i ∈ dotIndicesB bs → bs[i]? = some 46
  | [], i, h => by simp [dotIndicesB] at h
  | b :: rest, i, h => by
    by_cases hb : b = 46
    · rw [dotIndicesB, if_pos hb] at h
      rcases List.mem_cons.mp h with rfl | hm
      · simp [hb]
      · rcases List.mem_map.mp hm with ⟨j, hj, rfl⟩
        simpa using dotIndicesB_mem rest j hj
    · rw [dotIndicesB, if_neg hb] at h
      rcases List.mem_map.mp h with ⟨j, hj, rfl⟩
      simpa using dotIndicesB_mem rest j hj

theorem utf8_head_not_cont (c : Nat) (r : List Nat)
    (h : utf8Loop (c :: r) 0 = true) : isCont c = false := by
  cases hic : isCont c with
  | false => rfl
  | true =>
    exfalso
    have hrange : 128 ≤ c ∧ c < 192 := by simpa [isCont] using hic
    rw [utf8Loop] at h
    rw [if_neg (by omega)] at h
    rw [if_neg (by omega)] at h
    rw [if_neg (by omega)] at h
    rw [if_neg (by omega)] at h
    simp at h

theorem utf8_after_ascii :
    ∀ (bs : List Nat) (k : Nat), utf8Loop bs k = true →
      ∀ i b, bs[i]? = some b → b < 128 →
        ∀ c, bs[i + 1]? = some c → isCont c = false := by
  intro bs
  induction bs with
  | nil =>
    intro k _ i b hb
    simp at hb
  | cons x rest ih =>
    intro k h i b hb hlt c hc
    cases k with
    | zero =>
      rw [utf8Loop] at h
      by_cases hx : x < 128
      · rw [if_pos hx] at h
        cases i with
        | zero =>
          have hc0 : rest[0]? = some c := by simpa using hc
          cases rest with
          | nil => simp at hc0
          | cons y rr =>
            have hy : y = c := by simpa using hc0
            subst hy
            exact utf8_head_not_cont y rr h
        | succ j =>
          exact ih 0 h j b (by simpa using hb) hlt c (by simpa using hc)
      · rw [if_neg hx] at h
        by_cases h2 : 194 ≤ x ∧ x ≤ 223
        · rw [if_pos h2] at h
          cases i with
          | zero =>
            have hxb : x = b := by simpa using hb
            omega
          | succ j => exact ih 1 h j b (by simpa using hb) hlt c (by simpa using hc)
        · rw [if_neg h2] at h
          by_cases h3 : 224 ≤ x ∧ x ≤ 239
          · rw [if_pos h3] at h
            cases i with
            | zero =>
              have hxb : x = b := by simpa using hb
              omega
            | succ j => exact ih 2 h j b (by simpa using hb) hlt c (by simpa using hc)
          · rw [if_neg h3] at h
            by_cases h4 : 240 ≤ x ∧ x ≤ 244
            · rw [if_pos h4] at h
              cases i with
              | zero =>
                have hxb : x = b := by simpa using hb
                omega
              | succ j => exact ih 3 h j b (by simpa using hb) hlt c (by simpa using hc)
            · rw [if_neg h4] at h
              simp at h
    | succ k' =>
      rw [utf8Loop] at h
      have hparts : isCont x = true ∧ utf8Loop rest k' = true := by
        simpa using h
      cases i with
      | zero =>
        have hxb : x = b := by simpa using hb
        have hrange : 128 ≤ x ∧ x < 192 := by simpa [isCont] using hparts.1
        omega
      | succ j => exact ih k' hparts.2 j b (by simpa using hb) hlt c (by simpa using hc)

theorem boundary_dot (bs : List Nat) (i : Nat) (hi : bs[i]? = some 46) :
    isBoundary bs i = true := by
  simp [isBoundary, hi, isCont]

theorem boundary_after_dot (bs : List Nat) (i : Nat) (hv : validUtf8 bs = true)
    (hi : bs[i]? = some 46) : isBoundary bs (i + 1) = true := by
  cases hc : bs[i + 1]? with
  | none =>
    have hlen : i < bs.length := by
      rcases List.getElem?_eq_some.mp hi with ⟨hl, _⟩
      exact hl
    have hlen2 : bs.length ≤ i + 1 := List.getElem?_eq_none_iff.mp hc
    have heq : i + 1 = bs.length := by omega
    simp [isBoundary, heq]
  | some c =>
    have hnc : isCont c = false := utf8_after_ascii bs 0 hv i 46 hi (by omega) c hc
    simp [isBoundary, hc, hnc]

theorem boundary_zero (bs : List Nat) : isBoundary bs 0 = true := by
  simp [isBoundary]

/-- C9: on every valid UTF-8 byte string (arbitrary Unicode, with or without
dots) and every suffix index, the splitter totally returns a
(subdomain, registrable-domain) pair: every internal slice is in bounds and
on a character boundary, so the panic case `none` is unreachable; the
function is pure by construction. -/
theorem parse_domain_utf8_total (domain st : List Nat)
    (hv : validUtf8 domain = true) :
    ∃ sub reg, parse_domain_utf8 domain st = some (sub, reg) := by
  unfold parse_domain_utf8
  cases hrev : (dotIndicesB domain).reverse.take 3 with
  | nil => exact ⟨[], domain, rfl⟩
  | cons i1 tl =>
    cases tl with
    | nil => exact ⟨[], domain, rfl⟩
    | cons i2 rest =>
      have hi2mem : i2 ∈ dotIndicesB domain := by
        have hmem : i2 ∈ (dotIndicesB domain).reverse.take 3 := by
          rw [hrev]
          simp
        exact List.mem_reverse.mp (List.mem_of_mem_take hmem)
      have hi2 : domain[i2]? = some 46 := dotIndicesB_mem domain i2 hi2mem
      have hb2 : isBoundary domain (i2 + 1) = true := boundary_after_dot _ _ hv hi2
      have hb2' : isBoundary domain i2 = true := boundary_dot _ _ hi2
      have hsf : sliceFrom domain (i2 + 1) = some (domain.drop (i2 + 1)) := by
        simp [sliceFrom, hb2]
      dsimp only
      rw [hsf]
      cases rest with
      | nil =>
        dsimp only
        by_cases hpos : (positionsB st (domain.drop (i2 + 1))).isEmpty = true
        · rw [if_pos hpos]
          rw [show sliceTo domain i2 = some (domain.take i2) from by simp [sliceTo, hb2']]
          exact ⟨_, _, rfl⟩
        · rw [if_neg hpos]
          rw [show sliceTo domain 0 = some (domain.take 0) from by
            simp [sliceTo, boundary_zero]]
          rw [show sliceFrom domain 0 = some (domain.drop 0) from by
            simp [sliceFrom, boundary_zero]]
          exact ⟨_, _, rfl⟩
      | cons i3 rest' =>
        have hi3mem : i3 ∈ dotIndicesB domain := by
          have hmem : i3 ∈ (dotIndicesB domain).reverse.take 3 := by
            rw [hrev]
            simp
          exact List.mem_reverse.mp (List.mem_of_mem_take hmem)
        have hi3 : domain[i3]? = some 46 := dotIndicesB_mem domain i3 hi3mem
        have hb3 : isBoundary domain (i3 + 1) = true := boundary_after_dot _ _ hv hi3
        have hb3' : isBoundary domain i3 = true := boundary_dot _ _ hi3
        dsimp only
        by_cases hpos : (positionsB st (domain.drop (i2 + 1))).isEmpty = true
        · rw [if_pos hpos]
          rw [show sliceTo domain i2 = some (domain.take i2) from by simp [sliceTo, hb2']]
          exact ⟨_, _, rfl⟩
        · rw [if_neg hpos]
          rw [show sliceTo domain i3 = some (domain.take i3) from by simp [sliceTo, hb3']]
          rw [show sliceFrom domain (i3 + 1) = some (domain.drop (i3 + 1)) from by
            simp [sliceFrom, hb3]]
          exact ⟨_, _, rfl⟩

/-- Witness for C9 at a concrete valid UTF-8 input containing a multi-byte
character (the bytes of "日.a.b") and a concrete index (the bytes of "com"). -/
theorem parse_domain_utf8_total_witness :
    validUtf8 [230, 151, 165, 46, 97, 46, 98] = true ∧
    ∃ sub reg,
      parse_domain_utf8 [230, 151, 165, 46, 97, 46, 98] [99, 111, 109]
        = some (sub, reg) := by
  refine ⟨by decide, ?_⟩
  exact parse_domain_utf8_total [230, 151, 165, 46, 97, 46, 98] [99, 111, 109] (by decide)

end LeaksSuite
